import Mathlib

/-!
# Verification of the cargio-db-dev maintenance toolkit

Shallow embedding of the toolkit's core subsystems, translated from the Rust
source:

* `strip_signatures` and the finality predicates
  (src/subcommands/purge_signatures/signatures.rs);
* the signature purger driver `purge_signatures_for_blocks` /
  `purge_signatures` and its index build
  (src/subcommands/purge_signatures/purge.rs);
* the progress tracker (src/common/progress.rs);
* the execution-results summarizer (`summarize_map`,
  `ExecutionResultsStats::feed`, `get_execution_results_stats`,
  src/subcommands/execution_results_summary/summary.rs and read_db.rs);
* the slice extractor `transfer_block_info`
  (src/subcommands/extract_slice/storage.rs).

Modelling conventions:

* `BTreeMap<K, V>` is modelled as an association list `List (Nat × V)`
  iterated in list order; the map invariant (keys strictly ascending) is an
  explicit hypothesis where a theorem needs it.
* `PublicKey`, `Digest`, `BlockHash`, `DeployHash`, `Signature` and other
  content-addressed or cryptographic values are interpreted as `Nat`: the
  code only ever compares them for equality and order.
* `U512` weights are mapped to `Nat`; the source treats overflow as a
  programmer error and never exercises wrap-around.
* `f64` averages are modelled exactly in `Rat`; the source divides two
  exactly-representable integer quantities.
* LMDB transactions are modelled by threading the mutated table through the
  computation; an error return discards the uncommitted table, a commit at
  the end of a run publishes it.
* `BlockHeader`, `DeployMetadata` and `BlockSignatures` come from external
  crates (`master_node`, `cargio_types`); their fields are modelled from the
  spec's data-model section, keeping exactly the accessors the toolkit uses.
-/

/-! ## Association-list primitives (BTreeMap / BTreeSet operations) -/

/-- `BTreeMap::get`: first binding of a key in an association list. -/
def lookupA {α : Type} : List (Nat × α) → Nat → Option α
  | [], _ => none
  | (k, v) :: rest, key => if k = key then some v else lookupA rest key

/-- `BTreeMap::contains_key`. -/
def containsKey {α : Type} (m : List (Nat × α)) (k : Nat) : Bool :=
  (lookupA m k).isSome

/-- `BTreeMap::insert`, keeping keys sorted (replaces an existing binding). -/
def insertA {α : Type} : List (Nat × α) → Nat → α → List (Nat × α)
  | [], k, v => [(k, v)]
  | (k', v') :: rest, k, v =>
    if k < k' then (k, v) :: (k', v') :: rest
    else if k = k' then (k, v) :: rest
    else (k', v') :: insertA rest k v

/-- `lmdb del` / `BTreeMap::remove`: drop every binding of a key. -/
def eraseA {α : Type} : List (Nat × α) → Nat → List (Nat × α)
  | [], _ => []
  | (k', v') :: rest, k =>
    if k' = k then eraseA rest k else (k', v') :: eraseA rest k

/-- `BTreeSet::insert` on a sorted list of naturals. -/
def insertNat (k : Nat) : List Nat → List Nat
  | [] => [k]
  | x :: xs =>
    if k < x then k :: x :: xs
    else if k = x then x :: xs
    else x :: insertNat k xs

/-- A `BTreeSet<u64>` built from an arbitrary list of heights. -/
def natSetOf (l : List Nat) : List Nat :=
  l.foldr insertNat []

/-! ## Finality predicates and `strip_signatures`
(src/subcommands/purge_signatures/signatures.rs) -/

/-- `fn is_weak_finality(weight, total) { weight * 3 > total }` -/
def is_weak_finality (weight total : Nat) : Bool :=
  weight * 3 > total

/-- `fn is_strict_finality(weight, total) { weight * 3 > total * 2 }` -/
def is_strict_finality (weight total : Nat) : Bool :=
  weight * 3 > total * 2

/-- `BlockSignatures` (block_signatures.rs): hash, era and the ordered
`proofs` map from signer public key to (here: an abstract) signature. -/
structure BlockSignatures where
  block_hash : Nat
  era_id : Nat
  proofs : List (Nat × Nat)
deriving Repr, DecidableEq

/-- One step of building `inverse_map`:
`inverse_map.entry(*weight).or_default().push(key)` on a `BTreeMap` keyed by
weight (new keys are appended at the end of their weight bucket). -/
def inverseInsert : List (Nat × List Nat) → Nat → Nat →
    List (Nat × List Nat)
  | [], w, k => [(w, [k])]
  | (w', ks) :: rest, w, k =>
    if w < w' then (w, [k]) :: (w', ks) :: rest
    else if w = w' then (w', ks ++ [k]) :: rest
    else (w', ks) :: inverseInsert rest w k

/-- The `inverse_map : BTreeMap<U512, Vec<&PublicKey>>` of `strip_signatures`,
built by folding over the `weights` map in its iteration order. -/
def inverse_map (weights : List (Nat × Nat)) : List (Nat × List Nat) :=
  weights.foldl (fun m kw => inverseInsert m kw.2 kw.1) []

/-- The `(weight, key)` iteration order of the greedy loop:
`inverse_map.iter().flat_map(|(weight, keys)| keys.iter().map(...))`. -/
def signerOrder (weights : List (Nat × Nat)) : List (Nat × Nat) :=
  (inverse_map weights).flatMap fun p => p.2.map fun k => (p.1, k)

/-- `BTreeSet<&PublicKey>::insert` for `accumulated_sigs` (sorted, no dup). -/
def insertSorted (k : Nat) : List Nat → List Nat
  | [] => [k]
  | x :: xs =>
    if k < x then k :: x :: xs
    else if k = x then x :: xs
    else x :: insertSorted k xs

/-- The greedy accumulation loop of `strip_signatures`: walk the signers in
`signerOrder`, add each one that appears in `proofs`, and break as soon as
weak finality is reached. -/
def accumLoop (proofs : List (Nat × Nat)) (total : Nat) :
    List (Nat × Nat) → List Nat × Nat → List Nat × Nat
  | [], acc => acc
  | (weight, key) :: rest, (sigs, aw) =>
    if containsKey proofs key then
      let aw' := aw + weight
      let sigs' := insertSorted key sigs
      if is_weak_finality aw' total then (sigs', aw')
      else accumLoop proofs total rest (sigs', aw')
    else accumLoop proofs total rest (sigs, aw)

/-- `weights.get(popped_sig).unwrap()`; the popped signer always lies in the
domain of `weights`, so the default is never observed. -/
def lookupW (weights : List (Nat × Nat)) (k : Nat) : Nat :=
  (lookupA weights k).getD 0

/-- The strict-finality pop loop of `strip_signatures`:
`while is_strict_finality { if empty { return false }; pop_first; decrement }`.
`none` models the `return false` on an emptied signer set. -/
def popLoop (weights : List (Nat × Nat)) (total : Nat) :
    List Nat → Nat → Option (List Nat × Nat)
  | [], aw => if is_strict_finality aw total then none else some ([], aw)
  | k :: rest, aw =>
    if is_strict_finality aw total then
      popLoop weights total rest (aw - lookupW weights k)
    else some (k :: rest, aw)

/-- `strip_signatures(signatures, weights)` (signatures.rs:15-58).
`some out` models a `true` return with `out` the mutated signatures value;
`none` models `false` (the input is left untouched on that path). -/
def strip_signatures (signatures : BlockSignatures)
    (weights : List (Nat × Nat)) : Option BlockSignatures :=
  let total_weight : Nat := (weights.map Prod.snd).sum
  let acc := accumLoop signatures.proofs total_weight (signerOrder weights) ([], 0)
  match popLoop weights total_weight acc.1 acc.2 with
  | none => none
  | some (sigs, aw) =>
    if is_weak_finality aw total_weight then
      some { signatures with proofs := signatures.proofs.filter fun p => sigs.contains p.1 }
    else none

/-- Total weight `Σ W` of a weights map. -/
def totalW (weights : List (Nat × Nat)) : Nat :=
  (weights.map Prod.snd).sum

/-- Accumulated weight of a set of signers under a weights map. -/
def sumW (weights : List (Nat × Nat)) (sigs : List Nat) : Nat :=
  (sigs.map (lookupW weights)).sum

/-- Weight of the signers of `proofs` within a fragment of the iteration
order (used to state which prefix of the greedy walk reaches finality). -/
def signedOrderWeight (proofs : List (Nat × Nat))
    (l : List (Nat × Nat)) : Nat :=
  ((l.filter fun p => containsKey proofs p.2).map Prod.fst).sum

/-- Weight of the full signer set `dom(W) ∩ dom(P)`. -/
def signedWeight (weights : List (Nat × Nat))
    (proofs : List (Nat × Nat)) : Nat :=
  ((weights.filter fun p => containsKey proofs p.1).map Prod.snd).sum

/-- The `accumulated_sigs` set at the end of the greedy walk of
`strip_signatures` (before the strict-finality pop loop). -/
def greedySigners (proofs : List (Nat × Nat))
    (weights : List (Nat × Nat)) : List Nat :=
  (accumLoop proofs (totalW weights) (signerOrder weights) ([], 0)).1

/-! ## Progress tracker (src/common/progress.rs) -/

def STEPS : Nat := 20

def PROGRESS_MULTIPLIER : Nat := 100 / STEPS

def NULL_TOTAL_TO_PROCESS_ERROR : String :=
  "Cannot initialize total to process with 0"

/-- `ProgressTracker` state. `new` is the only constructor used by the
toolkit and rejects a zero total, so positivity travels with the value. -/
structure ProgressTracker where
  total_to_process : Nat
  processed : Nat
  progress_factor : Nat
  total_pos : 0 < total_to_process

/-- `ProgressTracker::new(total_to_process, log_progress)`. -/
def ProgressTracker.new (total_to_process : Nat) :
    Except String ProgressTracker :=
  if h : total_to_process = 0 then .error NULL_TOTAL_TO_PROCESS_ERROR
  else .ok ⟨total_to_process, 0, 1, Nat.pos_of_ne_zero h⟩

/-- The `while` loop of `advance_by`: emit `progress_factor * 5` while the
processed share has crossed the current 5% bucket; returns the emitted
percentages and the final `progress_factor`. -/
def advanceLoop (total processed : Nat) (htot : 0 < total) (factor : Nat) :
    List Nat × Nat :=
  if _h : processed * STEPS ≥ total * factor then
    let r := advanceLoop total processed htot (factor + 1)
    (factor * PROGRESS_MULTIPLIER :: r.1, r.2)
  else ([], factor)
termination_by processed * STEPS + 1 - total * factor
decreasing_by
  have hsucc : total * (factor + 1) = total * factor + total := Nat.mul_succ total factor
  omega

/-- `ProgressTracker::advance_by(step)`: the updated tracker together with
the percentages handed to the log callback (the over-advance warning goes to
the logger, not to the callback, and is not modelled). -/
def ProgressTracker.advance_by (pt : ProgressTracker) (step : Nat) :
    ProgressTracker × List Nat :=
  let processed := pt.processed + step
  let r := advanceLoop pt.total_to_process processed pt.total_pos pt.progress_factor
  ({ pt with processed := processed, progress_factor := r.2 }, r.1)

/-! ## Execution-results summarizer
(src/subcommands/execution_results_summary/summary.rs) -/

/-- `CollectionStatistics`; the `f64` average is carried exactly in `Rat`. -/
structure CollectionStatistics where
  average : Rat
  median : Nat
  max : Nat
deriving Repr, DecidableEq

/-- The `for (key, count) in map.iter()` loop of `summarize_map`, carrying
`(sum, current_idx, median, max)`; returns `(sum, median, max)`. -/
def summarizeLoop (elem_count median_pos : Nat) :
    List (Nat × Nat) → Nat → Nat → Nat → Nat → Nat × Nat × Nat
  | [], sum, _current_idx, median, max => (sum, median, max)
  | (key, count) :: rest, sum, current_idx, median, max =>
    let median' :=
      if current_idx ≤ median_pos ∧ current_idx + count > median_pos then key
      else median
    let sum' := sum + key * count
    let current_idx' := current_idx + count
    let max' := if current_idx' = elem_count then key else max
    summarizeLoop elem_count median_pos rest sum' current_idx' median' max'

/-- `summarize_map(map)` (summary.rs:20-45), over the histogram's
`BTreeMap<usize, usize>` in key order. -/
def summarize_map (map : List (Nat × Nat)) : CollectionStatistics :=
  let elem_count := (map.map Prod.snd).sum
  let median_pos := elem_count / 2
  let r := summarizeLoop elem_count median_pos map 0 0 0 0
  let average : Rat :=
    if 0 < elem_count then (r.1 : Rat) / (elem_count : Rat) else 0
  ⟨average, r.2.1, r.2.2⟩

/-- Production chunk size: 8 MiB (`CHUNK_SIZE_BYTES`, not(test)). -/
def CHUNK_SIZE_BYTES : Nat := 8 * 1024 * 1024

def LAST_ELEM_INDEX_IN_CHUNK : Nat := CHUNK_SIZE_BYTES - 1

/-- `chunk_count_after_partition(data_size)`. -/
def chunk_count_after_partition (data_size : Nat) : Nat :=
  (data_size + LAST_ELEM_INDEX_IN_CHUNK) / CHUNK_SIZE_BYTES

/-- Histogram increment: `if let Some(count) = map.get_mut(&k) { *count += 1 }
else { map.insert(k, 1) }` on a `BTreeMap`. -/
def bump : List (Nat × Nat) → Nat → List (Nat × Nat)
  | [], k => [(k, 1)]
  | (k', c) :: rest, k =>
    if k < k' then (k, 1) :: (k', c) :: rest
    else if k = k' then (k', c + 1) :: rest
    else (k', c) :: bump rest k

/-- `ExecutionResultsStats`: the two histograms. -/
structure ExecutionResultsStats where
  execution_results_size : List (Nat × Nat)
  chunk_count : List (Nat × Nat)
deriving Repr, DecidableEq

def ExecutionResultsStats.default : ExecutionResultsStats := ⟨[], []⟩

/-- An execution result is never inspected by the toolkit; abstract value. -/
abbrev ExecutionResult := Nat

/-- `ExecutionResultsStats::feed(execution_results)` (summary.rs:54-75).
The two serialized sizes (`bincode::serialized_size` and
`bytesrepr` `serialized_length`) are opaque functions of the sequence and
are passed in as parameters `bincodeSize` and `bytesreprLen`. -/
def ExecutionResultsStats.feed (stats : ExecutionResultsStats)
    (bincodeSize bytesreprLen : List ExecutionResult → Nat)
    (execution_results : List ExecutionResult) : ExecutionResultsStats :=
  let bincode_encoded_execution_results_size := bincodeSize execution_results
  let sizeHist := bump stats.execution_results_size bincode_encoded_execution_results_size
  let chunks_in_execution_results :=
    chunk_count_after_partition (bytesreprLen execution_results)
  let chunkHist := bump stats.chunk_count chunks_in_execution_results
  { stats with execution_results_size := sizeHist, chunk_count := chunkHist }

/-- `ExecutionResultsSummary`. -/
structure ExecutionResultsSummary where
  execution_results_size : CollectionStatistics
  chunks_statistics : CollectionStatistics
deriving Repr, DecidableEq

/-- `impl From<ExecutionResultsStats> for ExecutionResultsSummary`. -/
def toSummary (stats : ExecutionResultsStats) : ExecutionResultsSummary :=
  ⟨summarize_map stats.execution_results_size, summarize_map stats.chunk_count⟩

/-- Spec-side definition (used only to state properties of
`summarize_map`): the key at which the cumulative count, starting from
`cum`, first strictly exceeds `median_pos`; `0` when it never does. -/
def firstExceeding (median_pos : Nat) : Nat → List (Nat × Nat) → Nat
  | _, [] => 0
  | cum, (key, count) :: rest =>
    if median_pos < cum + count then key
    else firstExceeding median_pos (cum + count) rest

/-- Spec-side definition: the largest key of the histogram carrying a
nonzero count (`0` when there is none). -/
def largestNonzeroKey (map : List (Nat × Nat)) : Nat :=
  ((map.filter fun p => p.2 ≠ 0).map Prod.fst).foldr Nat.max 0

/-! ## Node record types
Modelled from the spec's data-model section (the concrete types live in the
external `master_node` / `cargio_types` crates; only the accessors the
toolkit calls are kept). Hashes and keys are abstract naturals. -/

/-- `BlockHeader` accessors used by the toolkit: `height()`, `era_id()`,
`protocol_version()` (an ordered value, abstracted to `Nat`),
`is_switch_block()`, `next_era_validator_weights()`, `body_hash()`,
`state_root_hash()`. `era_id().is_genesis()` is `era_id = 0` and
`era_id().successor()` is `era_id + 1`. -/
structure BlockHeader where
  height : Nat
  era_id : Nat
  protocol_version : Nat
  is_switch_block : Bool
  next_era_validator_weights : Option (List (Nat × Nat))
  body_hash : Nat
  state_root_hash : Nat
deriving Repr, DecidableEq

/-- `BlockBody` (execution_results_summary/block_body.rs). -/
structure BlockBody where
  proposer : Nat
  deploy_hashes : List Nat
  transfer_hashes : List Nat
deriving Repr, DecidableEq

/-- `DeployMetadata`: execution results keyed by the block the deploy ran
in; the result payload itself is opaque. -/
structure DeployMetadata where
  execution_results : List (Nat × ExecutionResult)
deriving Repr, DecidableEq

/-- A stored block-header record: the raw bytes either deserialize to a
header or fail (`bincode::deserialize` error). -/
inductive HeaderVal where
  | good (h : BlockHeader)
  | corrupt
deriving Repr, DecidableEq

/-- A stored block-body record. -/
inductive BodyVal where
  | good (b : BlockBody)
  | corrupt
deriving Repr, DecidableEq

/-- A stored deploy-metadata record. -/
inductive MetaVal where
  | good (m : DeployMetadata)
  | corrupt
deriving Repr, DecidableEq

/-- A stored block-signatures record. -/
inductive SigVal where
  | good (s : BlockSignatures)
  | corrupt
deriving Repr, DecidableEq

/-- The six named sub-databases of a storage environment.  Iteration order
of an association list models LMDB key-order cursor iteration. -/
structure Store where
  block_header : List (Nat × HeaderVal)
  block_body : List (Nat × BodyVal)
  deploy : List (Nat × Nat)
  transfer : List (Nat × Nat)
  deploy_metadata : List (Nat × MetaVal)
  block_metadata : List (Nat × SigVal)
deriving Repr, DecidableEq

/-- `create_output_db` declares the destination sub-databases, all empty
(note the source creates no `block_metadata` sub-database). -/
def emptyStore : Store := ⟨[], [], [], [], [], []⟩

/-! ## Execution-results summarizer scan
(src/subcommands/execution_results_summary/read_db.rs) -/

/-- Error taxonomy of the summarizer (`execution_results_summary::Error`);
payloads irrelevant to the claims are dropped. -/
inductive SummaryError where
  | Database
  | InvalidKey (idx : Nat)
  | Parsing (block_hash : Nat) (db_name : String)
deriving Repr, DecidableEq

/-- The inner deploy loop of `get_execution_results_stats`: look up each
deploy's metadata (a missing record is a fatal `Database` error) and keep
the execution result stored under the current block hash, if any. -/
def collectResults (store : Store) (block_hash : Nat) :
    List Nat → Except SummaryError (List ExecutionResult)
  | [] => .ok []
  | deploy_hash :: rest =>
    match lookupA store.deploy_metadata deploy_hash with
    | none => .error .Database
    | some .corrupt => .error (.Parsing block_hash "deploy_metadata")
    | some (.good metadata) =>
      match collectResults store block_hash rest with
      | .error e => .error e
      | .ok results =>
        match lookupA metadata.execution_results block_hash with
        | some execution_result => .ok (execution_result :: results)
        | none => .ok results

/-- The header-cursor loop of `get_execution_results_stats`: for every
header, read the body, collect this block's execution results, feed the
stats. -/
def statsLoop (store : Store) (bincodeSize bytesreprLen : List ExecutionResult → Nat) :
    List (Nat × HeaderVal) → ExecutionResultsStats →
    Except SummaryError ExecutionResultsStats
  | [], stats => .ok stats
  | (block_hash, hv) :: rest, stats =>
    match hv with
    | .corrupt => .error (.Parsing block_hash "block_header")
    | .good header =>
      match lookupA store.block_body header.body_hash with
      | none => .error .Database
      | some .corrupt => .error (.Parsing block_hash "block_body")
      | some (.good block_body) =>
        match collectResults store block_hash block_body.deploy_hashes with
        | .error e => .error e
        | .ok execution_results =>
          statsLoop store bincodeSize bytesreprLen rest
            (stats.feed bincodeSize bytesreprLen execution_results)

/-- `get_execution_results_stats(env, log_progress)` (read_db.rs:63-108);
progress tracking is pure logging and not modelled. -/
def get_execution_results_stats (store : Store)
    (bincodeSize bytesreprLen : List ExecutionResult → Nat) :
    Except SummaryError ExecutionResultsStats :=
  statsLoop store bincodeSize bytesreprLen store.block_header .default

/-! ## Slice extractor (src/subcommands/extract_slice/storage.rs) -/

/-- Error taxonomy of the slicer (`extract_slice::Error`), restricted to
what `transfer_block_info` can raise. -/
inductive SliceError where
  | Database
  | Parsing (block_hash : Nat) (db_name : String)
  | BincodeError
deriving Repr, DecidableEq

/-- The deploy loop of `transfer_block_info`: copy each deploy, read its
metadata (missing metadata is a fatal `Database` error), and write to the
destination a fresh `DeployMetadata` holding only the execution result keyed
by the target block (no record at all when there is none). -/
def deployLoop (source : Store) (block_hash : Nat) :
    List Nat → Store → Except SliceError Store
  | [], destination => .ok destination
  | deploy_hash :: rest, destination =>
    match lookupA source.deploy deploy_hash with
    | none => .error .Database
    | some deploy_bytes =>
      let destination :=
        { destination with deploy := insertA destination.deploy deploy_hash deploy_bytes }
      match lookupA source.deploy_metadata deploy_hash with
      | none => .error .Database
      | some .corrupt => .error (.Parsing block_hash "deploy_metadata")
      | some (.good metadata) =>
        match lookupA metadata.execution_results block_hash with
        | some execution_result =>
          let new_metadata : DeployMetadata := ⟨[(block_hash, execution_result)]⟩
          let metaDb := insertA destination.deploy_metadata deploy_hash (.good new_metadata)
          deployLoop source block_hash rest { destination with deploy_metadata := metaDb }
        | none => deployLoop source block_hash rest destination

/-- `transfer_block_info(source, destination, block_hash)`
(storage.rs:40-127).  On success returns the destination store as committed
together with the header's state root; on error the uncommitted destination
transaction is dropped. -/
def transfer_block_info (source : Store) (destination : Store)
    (block_hash : Nat) : Except SliceError (Store × Nat) :=
  match lookupA source.block_header block_hash with
  | none => .error .Database
  | some header_val =>
    let destination :=
      { destination with block_header := insertA destination.block_header block_hash header_val }
    match header_val with
    | .corrupt => .error .BincodeError
    | .good block_header =>
      match lookupA source.block_body block_header.body_hash with
      | none => .error .Database
      | some body_val =>
        let bodyDb := insertA destination.block_body block_header.body_hash body_val
        let destination := { destination with block_body := bodyDb }
        match body_val with
        | .corrupt => .error .BincodeError
        | .good block_body =>
          let destination :=
            match lookupA source.transfer block_hash with
            | some transfer_bytes =>
              { destination with transfer := insertA destination.transfer block_hash transfer_bytes }
            | none => destination
          match deployLoop source block_hash block_body.deploy_hashes destination with
          | .error e => .error e
          | .ok destination => .ok (destination, block_header.state_root_hash)

/-! ## Signature purger (src/subcommands/purge_signatures/purge.rs) -/

/-- Error taxonomy of the purger (`purge_signatures::Error`); payloads not
needed by the claims are dropped. -/
inductive PurgeError where
  | Database
  | HeaderParsing (block_hash : Nat)
  | SignaturesParsing (block_hash : Nat)
  | Serialize (block_hash : Nat)
  | DuplicateBlock (height : Nat)
  | MissingEraWeights (era_id : Nat)
  | EmptyDatabase
  | EmptyBlockList
deriving Repr, DecidableEq

/-- `Indices` built by the initial header scan. -/
structure Indices where
  heights : List (Nat × Nat × BlockHeader)
  switch_blocks : List (Nat × Nat)
  switch_blocks_before_upgrade : List Nat
deriving Repr, DecidableEq

def Indices.default : Indices := ⟨[], [], []⟩

/-- The header-cursor loop of `initialize_indices` (purge.rs:95-141),
accumulating the indices and the `last_blocks_before_upgrade` map from
protocol version to greatest switch-block height.  A header that fails to
deserialize is fatal (`HeaderParsing`); a needed height seen twice is fatal
(`DuplicateBlock`).  (The skip of raw keys that are not valid digests is
vacuous here: model keys are always valid.) -/
def buildLoop (needed_heights : List Nat) :
    List (Nat × HeaderVal) → Indices → List (Nat × Nat) →
    Except PurgeError (Indices × List (Nat × Nat))
  | [], indices, last_blocks => .ok (indices, last_blocks)
  | (block_hash, hv) :: rest, indices, last_blocks =>
    match hv with
    | .corrupt => .error (.HeaderParsing block_hash)
    | .good block_header =>
      let block_height := block_header.height
      let indices' :=
        if block_header.is_switch_block then
          let sb := insertA indices.switch_blocks (block_header.era_id + 1) block_hash
          { indices with switch_blocks := sb }
        else indices
      let last_blocks' :=
        if block_header.is_switch_block then
          match lookupA last_blocks block_header.protocol_version with
          | none => insertA last_blocks block_header.protocol_version block_height
          | some occupied =>
            if occupied < block_height then
              insertA last_blocks block_header.protocol_version block_height
            else last_blocks
        else last_blocks
      if needed_heights.contains block_height then
        if (lookupA indices'.heights block_height).isSome then
          .error (.DuplicateBlock block_height)
        else
          let hs := insertA indices'.heights block_height (block_hash, block_header)
          buildLoop needed_heights rest { indices' with heights := hs } last_blocks'
      else buildLoop needed_heights rest indices' last_blocks'

/-- `initialize_indices(env, needed_heights)` (purge.rs:76-146): scan the
header database, then drop the entry for the highest protocol version from
`last_blocks_before_upgrade` (`pop_last`, the association list is sorted by
version) and keep the remaining heights.  An empty header database fails
progress-tracker construction (`EmptyDatabase`). -/
def build_indices (headerDb : List (Nat × HeaderVal)) (needed_heights : List Nat) :
    Except PurgeError Indices :=
  if headerDb.isEmpty then .error .EmptyDatabase
  else
    match buildLoop needed_heights headerDb .default [] with
    | .error e => .error e
    | .ok (indices, last_blocks) =>
      let remaining := last_blocks.dropLast
      .ok { indices with switch_blocks_before_upgrade := remaining.map Prod.snd }

/-- `EraWeights` cache. -/
structure EraWeights where
  era_id : Nat
  weights : List (Nat × Nat)
  era_after_upgrade : Bool
deriving Repr, DecidableEq

def EraWeights.default : EraWeights := ⟨0, [], false⟩

/-- `EraWeights::refresh_weights_for_era` (purge.rs:36-62): serve from the
cache when the era matches, otherwise load the switch block advertising this
era's weights; fail with `MissingEraWeights` when no switch block is indexed
for the era or the switch block carries no weights. -/
def refresh_weights_for_era (ew : EraWeights) (headerDb : List (Nat × HeaderVal))
    (indices : Indices) (era_id : Nat) : Except PurgeError (Bool × EraWeights) :=
  if ew.era_id = era_id then .ok (ew.era_after_upgrade, ew)
  else
    match lookupA indices.switch_blocks era_id with
    | none => .error (.MissingEraWeights era_id)
    | some switch_block_hash =>
      match lookupA headerDb switch_block_hash with
      | none => .error .Database
      | some .corrupt => .error (.HeaderParsing switch_block_hash)
      | some (.good switch_block_header) =>
        let flag := indices.switch_blocks_before_upgrade.contains switch_block_header.height
        match switch_block_header.next_era_validator_weights with
        | none => .error (.MissingEraWeights era_id)
        | some weights => .ok (flag, ⟨era_id, weights, flag⟩)

/-- The per-height loop of `purge_signatures_for_blocks` (purge.rs:179-235),
threading the weights cache and the uncommitted `block_metadata` table.
Heights absent from the index, genesis-era blocks and blocks with no
signature record are skipped with a warning; a signature record that fails
to deserialize is fatal; in full-purge mode the record is deleted, otherwise
`strip_signatures` decides between overwrite and leave-untouched. -/
def purgeLoop (headerDb : List (Nat × HeaderVal)) (indices : Indices)
    (full_purge : Bool) :
    List Nat → EraWeights → List (Nat × SigVal) →
    Except PurgeError (EraWeights × List (Nat × SigVal))
  | [], era_weights, sigDb => .ok (era_weights, sigDb)
  | height :: rest, era_weights, sigDb =>
    match lookupA indices.heights height with
    | none => purgeLoop headerDb indices full_purge rest era_weights sigDb
    | some (block_hash, block_header) =>
      if block_header.era_id = 0 then
        purgeLoop headerDb indices full_purge rest era_weights sigDb
      else
        match refresh_weights_for_era era_weights headerDb indices block_header.era_id with
        | .error e => .error e
        | .ok (_era_after_upgrade, era_weights') =>
          match lookupA sigDb block_hash with
          | none => purgeLoop headerDb indices full_purge rest era_weights' sigDb
          | some .corrupt => .error (.SignaturesParsing block_hash)
          | some (.good block_signatures) =>
            if full_purge then
              purgeLoop headerDb indices full_purge rest era_weights' (eraseA sigDb block_hash)
            else
              match strip_signatures block_signatures era_weights'.weights with
              | some stripped =>
                let sigDb' := insertA sigDb block_hash (.good stripped)
                purgeLoop headerDb indices full_purge rest era_weights' sigDb'
              | none => purgeLoop headerDb indices full_purge rest era_weights' sigDb

/-- `purge_signatures_for_blocks(env, indices, heights_to_visit, full_purge)`
(purge.rs:147-238).  One RW transaction: the returned table is the state of
`block_metadata` after the run — committed (and possibly changed) only when
the whole pass succeeded, identical to the input otherwise (the uncommitted
transaction is dropped).  An empty visit list fails progress-tracker
construction (`EmptyBlockList`). -/
def purge_signatures_for_blocks (headerDb : List (Nat × HeaderVal))
    (sigDb : List (Nat × SigVal)) (indices : Indices)
    (heights_to_visit : List Nat) (full_purge : Bool) :
    Except PurgeError Unit × List (Nat × SigVal) :=
  if heights_to_visit.isEmpty then (.error .EmptyBlockList, sigDb)
  else
    match purgeLoop headerDb indices full_purge heights_to_visit .default sigDb with
    | .ok (_, sigDb') => (.ok (), sigDb')
    | .error e => (.error e, sigDb)

/-- `purge_signatures(db_path, weak_finality_block_list, no_finality_block_list)`
(purge.rs:240-259): build the indices over the union of the two height sets,
then run the weak-finality pass (if nonempty) followed by the no-finality
(full-purge) pass (if nonempty).  Input height lists are turned into sorted
sets (`BTreeSet<u64>`); the final `block_metadata` table reflects every pass
that committed before a failure. -/
def purge_signatures (headerDb : List (Nat × HeaderVal))
    (sigDb : List (Nat × SigVal)) (weak_finality_block_list : List Nat)
    (no_finality_block_list : List Nat) :
    Except PurgeError Unit × List (Nat × SigVal) :=
  let weakSet := natSetOf weak_finality_block_list
  let noSet := natSetOf no_finality_block_list
  let heights_to_visit := natSetOf (weak_finality_block_list ++ no_finality_block_list)
  match build_indices headerDb heights_to_visit with
  | .error e => (.error e, sigDb)
  | .ok indices =>
    let step1 :=
      if weakSet.isEmpty then (.ok (), sigDb)
      else purge_signatures_for_blocks headerDb sigDb indices weakSet false
    match step1 with
    | (.error e, db1) => (.error e, db1)
    | (.ok (), db1) =>
      if noSet.isEmpty then (.ok (), db1)
      else purge_signatures_for_blocks headerDb db1 indices noSet true


/-! ## Lemmas: association lists and sorted insertion -/

theorem mem_of_lookupA {α : Type} {m : List (Nat × α)} {k : Nat} {v : α}
    (h : lookupA m k = some v) : (k, v) ∈ m := by
  induction m with
  | nil => simp [lookupA] at h
  | cons p rest ih =>
    obtain ⟨k', v'⟩ := p
    by_cases hk : k' = k
    · subst hk
      have hv : v' = v := by simpa [lookupA] using h
      subst hv
      exact List.mem_cons_self _ _
    · simp only [lookupA, if_neg hk] at h
      exact List.mem_cons_of_mem _ (ih h)

theorem lookupA_of_mem {α : Type} {m : List (Nat × α)} {k : Nat} {v : α}
    (hnd : (m.map Prod.fst).Nodup) (h : (k, v) ∈ m) : lookupA m k = some v := by
  induction m with
  | nil => simp at h
  | cons p rest ih =>
    obtain ⟨k', v'⟩ := p
    simp only [List.map_cons, List.nodup_cons] at hnd
    rcases List.mem_cons.1 h with h1 | h1
    · cases h1
      simp [lookupA]
    · have hk : k' ≠ k := by
        intro he
        subst he
        exact hnd.1 (List.mem_map.2 ⟨(k', v), h1, rfl⟩)
      simp only [lookupA, if_neg hk]
      exact ih hnd.2 h1

theorem containsKey_iff_mem {α : Type} {m : List (Nat × α)} {k : Nat} :
    containsKey m k = true ↔ k ∈ m.map Prod.fst := by
  constructor
  · intro h
    obtain ⟨v, hv⟩ := Option.isSome_iff_exists.1 h
    exact List.mem_map.2 ⟨(k, v), mem_of_lookupA hv, rfl⟩
  · intro h
    induction m with
    | nil => simp at h
    | cons q rest ih =>
      obtain ⟨a, b⟩ := q
      by_cases ha : a = k
      · simp [containsKey, lookupA, ha]
      · simp only [List.map_cons, List.mem_cons] at h
        rcases h with h1 | h1
        · exact absurd h1.symm ha
        · simpa [containsKey, lookupA, ha] using ih h1

theorem insertSorted_perm {k : Nat} {s : List Nat} (h : k ∉ s) :
    List.Perm (insertSorted k s) (k :: s) := by
  induction s with
  | nil => simp [insertSorted]
  | cons x xs ih =>
    simp only [List.mem_cons, not_or] at h
    simp only [insertSorted]
    split
    · exact List.Perm.refl _
    · rw [if_neg h.1]
      exact ((ih h.2).cons x).trans (List.Perm.swap k x xs)

theorem mem_insertSorted {k x : Nat} {s : List Nat} (h : k ∉ s) :
    x ∈ insertSorted k s ↔ x = k ∨ x ∈ s := by
  rw [(insertSorted_perm h).mem_iff]
  simp

theorem insertSorted_nodup {k : Nat} {s : List Nat} (h : k ∉ s)
    (hs : s.Nodup) : (insertSorted k s).Nodup :=
  ((insertSorted_perm h).nodup_iff).2 (List.nodup_cons.2 ⟨h, hs⟩)

/-! ## Lemmas: the signer iteration order of `strip_signatures` -/

theorem inverseInsert_pairs (m : List (Nat × List Nat)) (w : Nat)
    (k : Nat) :
    List.Perm ((inverseInsert m w k).flatMap fun p => p.2.map fun x => (p.1, x))
      ((w, k) :: m.flatMap fun p => p.2.map fun x => (p.1, x)) := by
  induction m with
  | nil => simp [inverseInsert]
  | cons q rest ih =>
    obtain ⟨w', ks⟩ := q
    simp only [inverseInsert]
    split
    · simp
    · split
      · next hne heq =>
        subst heq
        simp only [List.flatMap_cons, List.map_append, List.map_cons, List.map_nil,
          List.append_assoc, List.singleton_append]
        exact List.perm_middle
      · simp only [List.flatMap_cons]
        refine (List.Perm.append_left _ ih).trans ?_
        exact List.perm_middle

theorem signerOrder_perm (weights : List (Nat × Nat)) :
    List.Perm (signerOrder weights) (weights.map fun p => (p.2, p.1)) := by
  suffices h : ∀ (l : List (Nat × Nat)) (m : List (Nat × List Nat)),
      List.Perm
        ((l.foldl (fun acc kw => inverseInsert acc kw.2 kw.1) m).flatMap
          fun p => p.2.map fun x => (p.1, x))
        ((m.flatMap fun p => p.2.map fun x => (p.1, x)) ++ l.map fun p => (p.2, p.1)) by
    have h2 := h weights []
    simpa [signerOrder, inverse_map] using h2
  intro l
  induction l with
  | nil =>
    intro m
    simp
  | cons q rest ih =>
    intro m
    obtain ⟨k, w⟩ := q
    simp only [List.foldl_cons, List.map_cons]
    refine (ih (inverseInsert m w k)).trans ?_
    refine ((inverseInsert_pairs m w k).append_right _).trans ?_
    rw [List.cons_append]
    exact List.perm_middle.symm

theorem signerOrder_keys_perm (weights : List (Nat × Nat)) :
    List.Perm ((signerOrder weights).map Prod.snd) (weights.map Prod.fst) := by
  have h := (signerOrder_perm weights).map Prod.snd
  simpa [List.map_map, Function.comp] using h

theorem signerOrder_keys_nodup {weights : List (Nat × Nat)}
    (h : (weights.map Prod.fst).Nodup) :
    ((signerOrder weights).map Prod.snd).Nodup :=
  ((signerOrder_keys_perm weights).nodup_iff).2 h

theorem signerOrder_consistent {weights : List (Nat × Nat)}
    (hnd : (weights.map Prod.fst).Nodup) :
    ∀ p ∈ signerOrder weights, lookupW weights p.2 = p.1 := by
  intro p hp
  have hmem : (p.2, p.1) ∈ weights := by
    have hmap := (signerOrder_perm weights).mem_iff.1 hp
    obtain ⟨q, hq, he⟩ := List.mem_map.1 hmap
    obtain ⟨a, b⟩ := q
    obtain ⟨x, y⟩ := p
    cases he
    exact hq
  simp [lookupW, lookupA_of_mem hnd hmem]

theorem signedOrderWeight_signerOrder (weights : List (Nat × Nat))
    (proofs : List (Nat × Nat)) :
    signedOrderWeight proofs (signerOrder weights) = signedWeight weights proofs := by
  unfold signedOrderWeight signedWeight
  refine List.Perm.sum_eq ?_
  have h1 := ((signerOrder_perm weights).filter
    (fun p => containsKey proofs p.2)).map Prod.fst
  refine h1.trans ?_
  rw [List.filter_map, List.map_map]
  simp [Function.comp_def]


/-! ## Lemmas: accumulated weights -/

theorem sumW_nil (weights : List (Nat × Nat)) : sumW weights [] = 0 := rfl

theorem sumW_cons (weights : List (Nat × Nat)) (k : Nat)
    (s : List Nat) : sumW weights (k :: s) = lookupW weights k + sumW weights s := by
  simp [sumW]

theorem sumW_insertSorted {weights : List (Nat × Nat)} {k : Nat}
    {s : List Nat} (h : k ∉ s) :
    sumW weights (insertSorted k s) = lookupW weights k + sumW weights s := by
  have hp := (insertSorted_perm h).map (lookupW weights)
  have hs := hp.sum_eq
  simpa [sumW] using hs

theorem sumW_drop_le (weights : List (Nat × Nat)) :
    ∀ (s : List Nat) (i : Nat), sumW weights (s.drop i) ≤ sumW weights s := by
  intro s
  induction s with
  | nil => intro i; simp
  | cons x xs ih =>
    intro i
    cases i with
    | zero => exact Nat.le_refl _
    | succ j =>
      calc sumW weights (xs.drop j) ≤ sumW weights xs := ih j
        _ ≤ sumW weights (x :: xs) := by
              rw [sumW_cons]; exact Nat.le_add_left _ _

theorem sumW_drop_mono (weights : List (Nat × Nat)) (s : List Nat)
    {i j : Nat} (hij : i ≤ j) :
    sumW weights (s.drop j) ≤ sumW weights (s.drop i) := by
  have h : s.drop j = (s.drop i).drop (j - i) := by
    rw [List.drop_drop]
    congr 1
    omega
  rw [h]
  exact sumW_drop_le weights (s.drop i) (j - i)

theorem weak_mono {a b total : Nat} (hab : a ≤ b)
    (hb : is_weak_finality b total = false) : is_weak_finality a total = false := by
  simp only [is_weak_finality, decide_eq_false_iff_not, Nat.not_lt] at hb ⊢
  omega

theorem strict_of_not_weak {w total : Nat}
    (h : is_weak_finality w total = false) : is_strict_finality w total = false := by
  simp only [is_weak_finality, is_strict_finality, decide_eq_false_iff_not,
    Nat.not_lt] at h ⊢
  omega

theorem strict_zero (total : Nat) : is_strict_finality 0 total = false := by
  simp [is_strict_finality]

theorem weak_zero (total : Nat) : is_weak_finality 0 total = false := by
  simp [is_weak_finality]

/-! ## Lemmas: the greedy accumulation loop -/

theorem accum_spec (weights : List (Nat × Nat))
    (proofs : List (Nat × Nat)) (total : Nat) :
    ∀ (l : List (Nat × Nat)) (sigs : List Nat) (aw : Nat)
      (S : List Nat) (w : Nat),
      accumLoop proofs total l (sigs, aw) = (S, w) →
      (∀ p ∈ l, lookupW weights p.2 = p.1) →
      (l.map Prod.snd).Nodup →
      (∀ k ∈ sigs, k ∉ l.map Prod.snd) →
      aw = sumW weights sigs →
      sigs.Nodup →
      w = sumW weights S ∧ S.Nodup ∧
        (∀ k ∈ S, k ∈ sigs ∨ (containsKey proofs k = true ∧ k ∈ l.map Prod.snd)) := by
  intro l
  induction l with
  | nil =>
    intro sigs aw S w heq _ _ _ hsum hnds
    simp only [accumLoop] at heq
    cases heq
    exact ⟨hsum, hnds, fun k hk => Or.inl hk⟩
  | cons q rest ih =>
    intro sigs aw S w heq hcons hnd hdisj hsum hnds
    obtain ⟨weight, key⟩ := q
    simp only [accumLoop] at heq
    simp only [List.map_cons, List.nodup_cons] at hnd
    have hkey : lookupW weights key = weight := hcons (weight, key) (List.mem_cons_self _ _)
    rcases (Bool.eq_false_or_eq_true (containsKey proofs key)).symm with hck | hck
    · rw [if_neg (by simp [hck])] at heq
      have hdisj' : ∀ k ∈ sigs, k ∉ rest.map Prod.snd := fun k hk hmem =>
        hdisj k hk (List.mem_cons_of_mem _ hmem)
      have hres := ih sigs aw S w heq
        (fun p hp => hcons p (List.mem_cons_of_mem _ hp)) hnd.2 hdisj' hsum hnds
      refine ⟨hres.1, hres.2.1, ?_⟩
      intro k hk
      rcases hres.2.2 k hk with h1 | h1
      · exact Or.inl h1
      · exact Or.inr ⟨h1.1, List.mem_cons_of_mem _ h1.2⟩
    · rw [if_pos hck] at heq
      have hknotin : key ∉ sigs := fun hin => hdisj key hin (by simp)
      have hsum' : aw + weight = sumW weights (insertSorted key sigs) := by
        rw [sumW_insertSorted hknotin, hkey, hsum, Nat.add_comm]
      have hnds' : (insertSorted key sigs).Nodup := insertSorted_nodup hknotin hnds
      have hdisj' : ∀ k ∈ insertSorted key sigs, k ∉ rest.map Prod.snd := by
        intro k hk
        rcases (mem_insertSorted hknotin).1 hk with h1 | h1
        · subst h1; exact hnd.1
        · intro hmem
          exact hdisj k h1 (List.mem_cons_of_mem _ hmem)
      rcases (Bool.eq_false_or_eq_true (is_weak_finality (aw + weight) total)).symm with hwf | hwf
      · rw [if_neg (by simp [hwf])] at heq
        have hres := ih (insertSorted key sigs) (aw + weight) S w heq
          (fun p hp => hcons p (List.mem_cons_of_mem _ hp)) hnd.2 hdisj' hsum' hnds'
        refine ⟨hres.1, hres.2.1, ?_⟩
        intro k hk
        rcases hres.2.2 k hk with h1 | h1
        · rcases (mem_insertSorted hknotin).1 h1 with h2 | h2
          · exact Or.inr ⟨h2 ▸ hck, by simp [h2]⟩
          · exact Or.inl h2
        · exact Or.inr ⟨h1.1, List.mem_cons_of_mem _ h1.2⟩
      · rw [if_pos hwf] at heq
        cases heq
        refine ⟨hsum', hnds', ?_⟩
        intro k hk
        rcases (mem_insertSorted hknotin).1 hk with h1 | h1
        · exact Or.inr ⟨h1 ▸ hck, by simp [h1]⟩
        · exact Or.inl h1

theorem accum_complete (proofs : List (Nat × Nat)) (total : Nat) :
    ∀ (l : List (Nat × Nat)) (sigs : List Nat) (aw : Nat)
      (S : List Nat) (w : Nat),
      accumLoop proofs total l (sigs, aw) = (S, w) →
      is_weak_finality w total = false →
      w = aw + signedOrderWeight proofs l := by
  intro l
  induction l with
  | nil =>
    intro sigs aw S w heq _
    simp only [accumLoop] at heq
    cases heq
    simp [signedOrderWeight]
  | cons q rest ih =>
    intro sigs aw S w heq hnw
    obtain ⟨weight, key⟩ := q
    simp only [accumLoop] at heq
    rcases (Bool.eq_false_or_eq_true (containsKey proofs key)).symm with hck | hck
    · rw [if_neg (by simp [hck])] at heq
      have hres := ih _ _ S w heq hnw
      rw [hres]
      simp only [signedOrderWeight, List.filter_cons]
      rw [if_neg (by simp [hck])]
    · rw [if_pos hck] at heq
      rcases (Bool.eq_false_or_eq_true (is_weak_finality (aw + weight) total)).symm with hwf | hwf
      · rw [if_neg (by simp [hwf])] at heq
        have hres := ih _ _ S w heq hnw
        rw [hres]
        simp only [signedOrderWeight, List.filter_cons, hck, if_pos, List.map_cons,
          List.sum_cons]
        omega
      · rw [if_pos hwf] at heq
        cases heq
        rw [hwf] at hnw
        cases hnw

theorem accum_min (proofs : List (Nat × Nat)) (total : Nat) :
    ∀ (l : List (Nat × Nat)) (sigs : List Nat) (aw : Nat)
      (S : List Nat) (w : Nat),
      accumLoop proofs total l (sigs, aw) = (S, w) →
      is_weak_finality aw total = false →
      ∀ j, is_weak_finality (aw + signedOrderWeight proofs (l.take j)) total = true →
        w ≤ aw + signedOrderWeight proofs (l.take j) := by
  intro l
  induction l with
  | nil =>
    intro sigs aw S w heq hnw j hj
    simp only [List.take_nil, signedOrderWeight, List.filter_nil, List.map_nil,
      List.sum_nil, Nat.add_zero] at hj
    rw [hj] at hnw
    cases hnw
  | cons q rest ih =>
    intro sigs aw S w heq hnw j hj
    obtain ⟨weight, key⟩ := q
    simp only [accumLoop] at heq
    cases j with
    | zero =>
      simp only [List.take_zero, signedOrderWeight, List.filter_nil, List.map_nil,
        List.sum_nil, Nat.add_zero] at hj
      rw [hj] at hnw
      cases hnw
    | succ i =>
      rcases (Bool.eq_false_or_eq_true (containsKey proofs key)).symm with hck | hck
      · have htake : signedOrderWeight proofs (((weight, key) :: rest).take (i + 1)) =
            signedOrderWeight proofs (rest.take i) := by
          simp only [signedOrderWeight, List.take_succ_cons, List.filter_cons]
          rw [if_neg (by simp [hck])]
        rw [if_neg (by simp [hck])] at heq
        rw [htake] at hj ⊢
        exact ih _ _ S w heq hnw i hj
      · have htake : signedOrderWeight proofs (((weight, key) :: rest).take (i + 1)) =
            weight + signedOrderWeight proofs (rest.take i) := by
          simp [signedOrderWeight, List.take_succ_cons, List.filter_cons, hck]
        rw [if_pos hck] at heq
        rw [htake] at hj ⊢
        rcases (Bool.eq_false_or_eq_true (is_weak_finality (aw + weight) total)).symm with hwf | hwf
        · rw [if_neg (by simp [hwf])] at heq
          have hres := ih _ _ S w heq hwf i
          rw [← Nat.add_assoc] at hj ⊢
          exact hres hj
        · rw [if_pos hwf] at heq
          have hw : w = aw + weight := congrArg Prod.snd heq.symm
          rw [hw]
          exact Nat.add_le_add_left (Nat.le_add_right _ _) _

/-! ## Lemmas: the strict-finality pop loop -/

theorem pop_spec (weights : List (Nat × Nat)) (total : Nat) :
    ∀ (S : List Nat) (aw : Nat) (S' : List Nat) (w' : Nat),
      aw = sumW weights S →
      popLoop weights total S aw = some (S', w') →
      ∃ i, S' = S.drop i ∧ w' = sumW weights S' ∧
        is_strict_finality w' total = false ∧
        ∀ j < i, is_strict_finality (sumW weights (S.drop j)) total = true := by
  intro S
  induction S with
  | nil =>
    intro aw S' w' hsum heq
    have haw : aw = 0 := by rw [hsum, sumW_nil]
    subst haw
    simp only [popLoop, strict_zero] at heq
    rw [if_neg (by simp)] at heq
    have hS : ([] : List Nat) = S' ∧ (0 : Nat) = w' := by
      have hni := Option.some.inj heq
      exact ⟨congrArg Prod.fst hni, congrArg Prod.snd hni⟩
    obtain ⟨h1, h2⟩ := hS
    refine ⟨0, by rw [← h1]; rfl, ?_, ?_, ?_⟩
    · rw [← h1, ← h2]; exact (sumW_nil weights).symm
    · rw [← h2]; exact strict_zero total
    · intro j hj; cases hj
  | cons k rest ih =>
    intro aw S' w' hsum heq
    simp only [popLoop] at heq
    rcases (Bool.eq_false_or_eq_true (is_strict_finality aw total)).symm with hst | hst
    · rw [if_neg (by simp [hst])] at heq
      have hni := Option.some.inj heq
      have h1 : k :: rest = S' := congrArg Prod.fst hni
      have h2 : aw = w' := congrArg Prod.snd hni
      refine ⟨0, by rw [← h1]; rfl, ?_, ?_, ?_⟩
      · rw [← h1, ← h2]; exact hsum
      · rw [← h2]; exact hst
      · intro j hj; cases hj
    · rw [if_pos hst] at heq
      have hsum' : aw - lookupW weights k = sumW weights rest := by
        rw [hsum, sumW_cons]
        omega
      obtain ⟨i, hS', hw', hnst, hall⟩ := ih _ S' w' hsum' heq
      refine ⟨i + 1, by simpa using hS', hw', hnst, ?_⟩
      intro j hj
      cases j with
      | zero => rw [List.drop_zero, ← hsum]; exact hst
      | succ m =>
        have hm : m < i := by omega
        simpa using hall m hm

theorem pop_ne_none (weights : List (Nat × Nat)) (total : Nat) :
    ∀ (S : List Nat) (aw : Nat), aw = sumW weights S →
      popLoop weights total S aw ≠ none := by
  intro S
  induction S with
  | nil =>
    intro aw hsum
    have haw : aw = 0 := by rw [hsum, sumW_nil]
    subst haw
    simp only [popLoop, strict_zero]
    rw [if_neg (by simp)]
    simp
  | cons k rest ih =>
    intro aw hsum
    simp only [popLoop]
    rcases (Bool.eq_false_or_eq_true (is_strict_finality aw total)).symm with hst | hst
    · rw [if_neg (by simp [hst])]
      simp
    · rw [if_pos hst]
      refine ih _ ?_
      rw [hsum, sumW_cons]
      omega

/-! ## Lemmas: `strip_signatures` assembled -/

theorem retained_keys_perm (P : List (Nat × Nat)) (S : List Nat)
    (hP : (P.map Prod.fst).Nodup) (hS : S.Nodup)
    (hsub : ∀ k ∈ S, containsKey P k = true) :
    List.Perm ((P.filter fun p => S.contains p.1).map Prod.fst) S := by
  have hnd1 : ((P.filter fun p => S.contains p.1).map Prod.fst).Nodup :=
    hP.sublist ((List.filter_sublist P).map Prod.fst)
  refine (List.perm_ext_iff_of_nodup hnd1 hS).2 ?_
  intro a
  simp only [List.mem_map, List.mem_filter]
  constructor
  · rintro ⟨p, ⟨_, hpS⟩, rfl⟩
    exact List.elem_iff.1 hpS
  · intro ha
    have hc := hsub a ha
    rw [containsKey_iff_mem] at hc
    obtain ⟨p, hpP, he⟩ := List.mem_map.1 hc
    exact ⟨p, ⟨hpP, by rw [he]; exact List.elem_iff.2 ha⟩, he⟩

theorem greedy_spec (weights proofs : List (Nat × Nat))
    (hWnd : (weights.map Prod.fst).Nodup) :
    (accumLoop proofs (totalW weights) (signerOrder weights) ([], 0)).2 =
      sumW weights (greedySigners proofs weights) ∧
    (greedySigners proofs weights).Nodup ∧
    ∀ k ∈ greedySigners proofs weights, containsKey proofs k = true := by
  have heq : accumLoop proofs (totalW weights) (signerOrder weights) ([], 0) =
      ((accumLoop proofs (totalW weights) (signerOrder weights) ([], 0)).1,
       (accumLoop proofs (totalW weights) (signerOrder weights) ([], 0)).2) := rfl
  have hres := accum_spec weights proofs (totalW weights) (signerOrder weights) [] 0
    _ _ heq (signerOrder_consistent hWnd) (signerOrder_keys_nodup hWnd)
    (by simp) (sumW_nil weights).symm List.nodup_nil
  refine ⟨hres.1, hres.2.1, ?_⟩
  intro k hk
  rcases hres.2.2 k hk with h1 | h1
  · simp at h1
  · exact h1.1

theorem strip_some_core (weights : List (Nat × Nat))
    (signatures out : BlockSignatures)
    (hW : (weights.map Prod.fst).Pairwise (· < ·))
    (hP : (signatures.proofs.map Prod.fst).Pairwise (· < ·))
    (heq : strip_signatures signatures weights = some out) :
    out.proofs.Sublist signatures.proofs ∧
    (∃ i, sumW weights (out.proofs.map Prod.fst) =
        sumW weights ((greedySigners signatures.proofs weights).drop i)) ∧
    is_weak_finality (sumW weights (out.proofs.map Prod.fst)) (totalW weights) = true ∧
    is_strict_finality (sumW weights (out.proofs.map Prod.fst)) (totalW weights) = false := by
  have hWnd : (weights.map Prod.fst).Nodup := hW.imp fun hab => Nat.ne_of_lt hab
  have hPnd : (signatures.proofs.map Prod.fst).Nodup := hP.imp fun hab => Nat.ne_of_lt hab
  obtain ⟨hgsum, hgnd, hgmem⟩ := greedy_spec weights signatures.proofs hWnd
  simp only [strip_signatures] at heq
  rcases hpop : popLoop weights ((weights.map Prod.snd).sum)
      (accumLoop signatures.proofs ((weights.map Prod.snd).sum) (signerOrder weights) ([], 0)).1
      (accumLoop signatures.proofs ((weights.map Prod.snd).sum) (signerOrder weights) ([], 0)).2
    with _ | ⟨sigs, aw⟩
  · rw [hpop] at heq
    simp at heq
  · rw [hpop] at heq
    simp only at heq
    rcases (Bool.eq_false_or_eq_true
        (is_weak_finality aw ((weights.map Prod.snd).sum))).symm with hwk | hwk
    · rw [if_neg (by simp [hwk])] at heq
      simp at heq
    · rw [if_pos hwk] at heq
      have hout : out = { signatures with
          proofs := signatures.proofs.filter fun p => sigs.contains p.1 } :=
        (Option.some.inj heq).symm
      obtain ⟨i, hS', hw', hnst, _⟩ := pop_spec weights ((weights.map Prod.snd).sum)
        (greedySigners signatures.proofs weights)
        (accumLoop signatures.proofs ((weights.map Prod.snd).sum)
          (signerOrder weights) ([], 0)).2 sigs aw hgsum hpop
      have hsigs_nd : sigs.Nodup := hS' ▸ hgnd.sublist (List.drop_sublist i _)
      have hsigs_sub : ∀ k ∈ sigs, containsKey signatures.proofs k = true := by
        intro k hk
        refine hgmem k ?_
        rw [hS'] at hk
        exact List.drop_subset i _ hk
      have hperm := retained_keys_perm signatures.proofs sigs hPnd hsigs_nd hsigs_sub
      have hsum_eq : sumW weights (out.proofs.map Prod.fst) = sumW weights sigs := by
        rw [hout]
        exact (hperm.map (lookupW weights)).sum_eq
      refine ⟨?_, ⟨i, ?_⟩, ?_, ?_⟩
      · rw [hout]
        exact List.filter_sublist signatures.proofs
      · rw [hsum_eq, ← hS']
      · rw [hsum_eq, ← hw']
        exact hwk
      · rw [hsum_eq, ← hw']
        exact hnst

theorem strip_none_core (weights : List (Nat × Nat)) (signatures : BlockSignatures)
    (hW : (weights.map Prod.fst).Pairwise (· < ·))
    (heq : strip_signatures signatures weights = none) :
    is_weak_finality (signedWeight weights signatures.proofs) (totalW weights) = false ∨
    ∀ i, is_weak_finality
          (sumW weights ((greedySigners signatures.proofs weights).drop i))
          (totalW weights) = true →
        is_strict_finality
          (sumW weights ((greedySigners signatures.proofs weights).drop i))
          (totalW weights) = true := by
  have hWnd : (weights.map Prod.fst).Nodup := hW.imp fun hab => Nat.ne_of_lt hab
  obtain ⟨hgsum, hgnd, hgmem⟩ := greedy_spec weights signatures.proofs hWnd
  have heqacc : accumLoop signatures.proofs (totalW weights) (signerOrder weights) ([], 0) =
      ((accumLoop signatures.proofs (totalW weights) (signerOrder weights) ([], 0)).1,
       (accumLoop signatures.proofs (totalW weights) (signerOrder weights) ([], 0)).2) := rfl
  rcases (Bool.eq_false_or_eq_true
      (is_weak_finality
        (accumLoop signatures.proofs (totalW weights) (signerOrder weights) ([], 0)).2
        (totalW weights))).symm with haccw | haccw
  · left
    have hcomp := accum_complete signatures.proofs (totalW weights) (signerOrder weights)
      [] 0 _ _ heqacc haccw
    rw [Nat.zero_add, signedOrderWeight_signerOrder] at hcomp
    rw [← hcomp]
    exact haccw
  · right
    simp only [strip_signatures] at heq
    rcases hpop : popLoop weights ((weights.map Prod.snd).sum)
        (accumLoop signatures.proofs ((weights.map Prod.snd).sum) (signerOrder weights) ([], 0)).1
        (accumLoop signatures.proofs ((weights.map Prod.snd).sum) (signerOrder weights) ([], 0)).2
      with _ | ⟨sigs, aw⟩
    · exact absurd hpop (pop_ne_none weights (totalW weights) _ _ hgsum)
    · rw [hpop] at heq
      simp only at heq
      rcases (Bool.eq_false_or_eq_true
          (is_weak_finality aw ((weights.map Prod.snd).sum))).symm with hwk | hwk
      · obtain ⟨i0, hS', hw', _, hall⟩ := pop_spec weights (totalW weights)
          (greedySigners signatures.proofs weights) _ sigs aw hgsum hpop
        intro i hweak
        by_cases hlt : i < i0
        · exact hall i hlt
        · exfalso
          have hle : sumW weights ((greedySigners signatures.proofs weights).drop i) ≤
              sumW weights ((greedySigners signatures.proofs weights).drop i0) :=
            sumW_drop_mono weights _ (Nat.le_of_not_lt hlt)
          have hnw0 : is_weak_finality
              (sumW weights ((greedySigners signatures.proofs weights).drop i0))
              (totalW weights) = false := by
            rw [← hS', ← hw']
            exact hwk
          rw [weak_mono hle hnw0] at hweak
          cases hweak
      · rw [if_pos hwk] at heq
        simp at heq

/-! ## Claims C1-C3: the finality algorithm -/

/-- C1.  For every validator weight map `W` with positive total `T` and every
`BlockSignatures` value with proofs map `P`, if `strip_signatures` succeeds
then the retained proofs map is a subset (in fact a sublist) `P'` of the
original `P`, whose accumulated weight `s = Σ_{P'} W` satisfies weak
finality (`3 s > T`) and not strict finality (`3 s ≤ 2 T`). -/
theorem claim_C1_strip_true_weak_not_strict
    (weights : List (Nat × Nat)) (signatures out : BlockSignatures)
    (hW : (weights.map Prod.fst).Pairwise (· < ·))
    (hP : (signatures.proofs.map Prod.fst).Pairwise (· < ·))
    (_hT : 0 < totalW weights)
    (heq : strip_signatures signatures weights = some out) :
    out.proofs.Sublist signatures.proofs ∧
    is_weak_finality (sumW weights (out.proofs.map Prod.fst)) (totalW weights) = true ∧
    is_strict_finality (sumW weights (out.proofs.map Prod.fst)) (totalW weights) = false := by
  obtain ⟨hsub, _, hwk, hst⟩ := strip_some_core weights signatures out hW hP heq
  exact ⟨hsub, hwk, hst⟩

theorem claim_C1_witness :
    (BlockSignatures.mk 0 1 [(0, 0), (1, 0), (2, 0)]).proofs.Sublist
      (BlockSignatures.mk 0 1 [(0, 0), (1, 0), (2, 0), (3, 0)]).proofs ∧
    is_weak_finality
      (sumW [(0, 100), (1, 200), (2, 300), (3, 400)]
        ((BlockSignatures.mk 0 1 [(0, 0), (1, 0), (2, 0)]).proofs.map Prod.fst))
      (totalW [(0, 100), (1, 200), (2, 300), (3, 400)]) = true ∧
    is_strict_finality
      (sumW [(0, 100), (1, 200), (2, 300), (3, 400)]
        ((BlockSignatures.mk 0 1 [(0, 0), (1, 0), (2, 0)]).proofs.map Prod.fst))
      (totalW [(0, 100), (1, 200), (2, 300), (3, 400)]) = false :=
  claim_C1_strip_true_weak_not_strict
    [(0, 100), (1, 200), (2, 300), (3, 400)]
    (BlockSignatures.mk 0 1 [(0, 0), (1, 0), (2, 0), (3, 0)])
    (BlockSignatures.mk 0 1 [(0, 0), (1, 0), (2, 0)])
    (by decide) (by decide) (by decide) (by decide)

/-- C2 counterexample.  With weights `{0 ↦ 700, 1 ↦ 100, 2 ↦ 250}` (total
`T = 1050`) and signers `P = {0, 1}`, `strip_signatures` returns `false`,
yet the full signer set has weak finality (weight 800) and the subset `{0}`
(weight 700) satisfies weak finality without strict finality — refuting
"either the full set fails weak finality or every weak subset is strict".
The greedy walk reaches 800 (strict), and the pop loop then removes signer 0
(the smallest key, but the heaviest weight), jumping past the target window. -/
theorem claim_C2_counterexample :
    strip_signatures (BlockSignatures.mk 0 1 [(0, 0), (1, 0)])
        [(0, 700), (1, 100), (2, 250)] = none ∧
    is_weak_finality
      (signedWeight [(0, 700), (1, 100), (2, 250)] [(0, 0), (1, 0)])
      (totalW [(0, 700), (1, 100), (2, 250)]) = true ∧
    containsKey [((0 : Nat), (0 : Nat)), (1, 0)] 0 = true ∧
    containsKey [((0 : Nat), (700 : Nat)), (1, 100), (2, 250)] 0 = true ∧
    is_weak_finality (sumW [(0, 700), (1, 100), (2, 250)] [0])
      (totalW [(0, 700), (1, 100), (2, 250)]) = true ∧
    is_strict_finality (sumW [(0, 700), (1, 100), (2, 250)] [0])
      (totalW [(0, 700), (1, 100), (2, 250)]) = false := by
  decide

/-- C2, amended.  When `strip_signatures` returns `false`, either the full
signer set `P ∩ dom(W)` fails weak finality, or every suffix (under the
ascending signer-key order) of the greedily accumulated signer set that
satisfies weak finality also satisfies strict finality.  (The original
claim quantified over arbitrary subsets of `P`, which the code refutes —
see the counterexample.) -/
theorem claim_C2_amended_strip_false
    (weights : List (Nat × Nat)) (signatures : BlockSignatures)
    (hW : (weights.map Prod.fst).Pairwise (· < ·))
    (_hP : (signatures.proofs.map Prod.fst).Pairwise (· < ·))
    (_hT : 0 < totalW weights)
    (heq : strip_signatures signatures weights = none) :
    is_weak_finality (signedWeight weights signatures.proofs) (totalW weights) = false ∨
    ∀ i, is_weak_finality
          (sumW weights ((greedySigners signatures.proofs weights).drop i))
          (totalW weights) = true →
        is_strict_finality
          (sumW weights ((greedySigners signatures.proofs weights).drop i))
          (totalW weights) = true :=
  strip_none_core weights signatures hW heq

theorem claim_C2_witness :
    is_weak_finality
      (signedWeight [(0, 100), (1, 200), (2, 700)]
        (BlockSignatures.mk 0 1 [(0, 0), (1, 0), (2, 0)]).proofs)
      (totalW [(0, 100), (1, 200), (2, 700)]) = false ∨
    ∀ i, is_weak_finality
          (sumW [(0, 100), (1, 200), (2, 700)]
            ((greedySigners (BlockSignatures.mk 0 1 [(0, 0), (1, 0), (2, 0)]).proofs
              [(0, 100), (1, 200), (2, 700)]).drop i))
          (totalW [(0, 100), (1, 200), (2, 700)]) = true →
        is_strict_finality
          (sumW [(0, 100), (1, 200), (2, 700)]
            ((greedySigners (BlockSignatures.mk 0 1 [(0, 0), (1, 0), (2, 0)]).proofs
              [(0, 100), (1, 200), (2, 700)]).drop i))
          (totalW [(0, 100), (1, 200), (2, 700)]) = true :=
  claim_C2_amended_strip_false [(0, 100), (1, 200), (2, 700)]
    (BlockSignatures.mk 0 1 [(0, 0), (1, 0), (2, 0)])
    (by decide) (by decide) (by decide) (by decide)

/-- C3 counterexample.  With weights `{0 ↦ 2, 1 ↦ 2, 2 ↦ 3}` (total `T = 7`)
and all three validators signing, `strip_signatures` succeeds and retains
`{0, 1}` with accumulated weight 4, but the subset `{2}` of
`dom(W) ∩ dom(P)` crosses the weak-finality threshold with the smaller
weight 3 (and also avoids strict finality, so it is a smaller valid subset):
the retained subset is neither minimal nor of smallest crossing weight. -/
theorem claim_C3_counterexample :
    strip_signatures (BlockSignatures.mk 0 1 [(0, 0), (1, 0), (2, 0)])
        [(0, 2), (1, 2), (2, 3)] =
      some (BlockSignatures.mk 0 1 [(0, 0), (1, 0)]) ∧
    containsKey [((0 : Nat), (2 : Nat)), (1, 2), (2, 3)] 2 = true ∧
    containsKey [((0 : Nat), (0 : Nat)), (1, 0), (2, 0)] 2 = true ∧
    is_weak_finality (sumW [(0, 2), (1, 2), (2, 3)] [2])
      (totalW [(0, 2), (1, 2), (2, 3)]) = true ∧
    is_strict_finality (sumW [(0, 2), (1, 2), (2, 3)] [2])
      (totalW [(0, 2), (1, 2), (2, 3)]) = false ∧
    sumW [(0, 2), (1, 2), (2, 3)] [2] <
      sumW [(0, 2), (1, 2), (2, 3)]
        ((BlockSignatures.mk 0 1 [(0, 0), (1, 0)]).proofs.map Prod.fst) := by
  decide

/-- C3, amended.  On success the retained subset's accumulated weight is at
most the signed weight of every prefix of the smallest-first `(weight, key)`
signer enumeration that crosses the weak-finality threshold — the greedy
walk stops at the first crossing prefix and popping can only shrink it.
(The original claim — minimality over *all* subsets of `dom(W) ∩ dom(P)` —
is refuted by the code; see the counterexample.) -/
theorem claim_C3_amended_minimal_crossing_weight
    (weights : List (Nat × Nat)) (signatures out : BlockSignatures)
    (hW : (weights.map Prod.fst).Pairwise (· < ·))
    (hP : (signatures.proofs.map Prod.fst).Pairwise (· < ·))
    (_hT : 0 < totalW weights)
    (heq : strip_signatures signatures weights = some out) :
    ∀ j, is_weak_finality
          (signedOrderWeight signatures.proofs ((signerOrder weights).take j))
          (totalW weights) = true →
      sumW weights (out.proofs.map Prod.fst) ≤
        signedOrderWeight signatures.proofs ((signerOrder weights).take j) := by
  intro j hj
  have hWnd : (weights.map Prod.fst).Nodup := hW.imp fun hab => Nat.ne_of_lt hab
  obtain ⟨hgsum, _, _⟩ := greedy_spec weights signatures.proofs hWnd
  have heqacc : accumLoop signatures.proofs (totalW weights) (signerOrder weights) ([], 0) =
      ((accumLoop signatures.proofs (totalW weights) (signerOrder weights) ([], 0)).1,
       (accumLoop signatures.proofs (totalW weights) (signerOrder weights) ([], 0)).2) := rfl
  obtain ⟨_, ⟨i, hsum_i⟩, _, _⟩ := strip_some_core weights signatures out hW hP heq
  have h1 : sumW weights (out.proofs.map Prod.fst) ≤
      (accumLoop signatures.proofs (totalW weights) (signerOrder weights) ([], 0)).2 := by
    rw [hsum_i, hgsum]
    exact sumW_drop_le weights _ i
  have h2 := accum_min signatures.proofs (totalW weights) (signerOrder weights)
    [] 0 _ _ heqacc (weak_zero _) j (by rw [Nat.zero_add]; exact hj)
  rw [Nat.zero_add] at h2
  exact Nat.le_trans h1 h2

theorem claim_C3_witness :
    sumW [(0, 100), (1, 200), (2, 300), (3, 400)]
        ((BlockSignatures.mk 0 1 [(0, 0), (1, 0), (2, 0)]).proofs.map Prod.fst) ≤
      signedOrderWeight (BlockSignatures.mk 0 1 [(0, 0), (1, 0), (2, 0), (3, 0)]).proofs
        ((signerOrder [(0, 100), (1, 200), (2, 300), (3, 400)]).take 3) :=
  claim_C3_amended_minimal_crossing_weight
    [(0, 100), (1, 200), (2, 300), (3, 400)]
    (BlockSignatures.mk 0 1 [(0, 0), (1, 0), (2, 0), (3, 0)])
    (BlockSignatures.mk 0 1 [(0, 0), (1, 0), (2, 0)])
    (by decide) (by decide) (by decide) (by decide) 3 (by decide)


/-! ## Lemmas: `summarize_map` -/

theorem summarizeLoop_sum (ec mp : Nat) :
    ∀ (l : List (Nat × Nat)) (sum cur med mx : Nat),
      (summarizeLoop ec mp l sum cur med mx).1 =
        sum + (l.map fun p => p.1 * p.2).sum := by
  intro l
  induction l with
  | nil => intro sum cur med mx; simp [summarizeLoop]
  | cons q rest ih =>
    intro sum cur med mx
    obtain ⟨key, count⟩ := q
    simp only [summarizeLoop, List.map_cons, List.sum_cons]
    rw [ih]
    omega

theorem summarizeLoop_median (ec mp : Nat) :
    ∀ (l : List (Nat × Nat)) (sum cur med mx : Nat),
      mp < cur + (l.map Prod.snd).sum →
      (summarizeLoop ec mp l sum cur med mx).2.1 =
        if mp < cur then med else firstExceeding mp cur l := by
  intro l
  induction l with
  | nil =>
    intro sum cur med mx hcross
    simp only [List.map_nil, List.sum_nil, Nat.add_zero] at hcross
    simp only [summarizeLoop, firstExceeding]
    rw [if_pos hcross]
  | cons q rest ih =>
    intro sum cur med mx hcross
    obtain ⟨key, count⟩ := q
    simp only [List.map_cons, List.sum_cons] at hcross
    simp only [summarizeLoop, firstExceeding]
    rw [ih _ (cur + count) _ _ (by omega)]
    by_cases h2 : mp < cur + count
    · by_cases h1 : mp < cur
      · rw [if_pos h1, if_neg (by omega : ¬ (cur ≤ mp ∧ cur + count > mp)),
          if_pos h2]
      · rw [if_pos h2, if_pos (show cur ≤ mp ∧ cur + count > mp by omega),
          if_neg h1, if_pos h2]
    · have h1 : ¬ mp < cur := by omega
      rw [if_neg h2, if_neg h1, if_neg h2]

theorem summarizeLoop_max (ec mp : Nat) :
    ∀ (l : List (Nat × Nat)) (sum cur med mx : Nat),
      (∀ p ∈ l, 0 < p.2) →
      cur + (l.map Prod.snd).sum = ec →
      (summarizeLoop ec mp l sum cur med mx).2.2 =
        ((l.map Prod.fst).getLast?).getD mx := by
  intro l
  induction l with
  | nil => intro sum cur med mx _ _; simp [summarizeLoop]
  | cons q rest ih =>
    intro sum cur med mx hpos hsum
    obtain ⟨key, count⟩ := q
    simp only [summarizeLoop]
    cases rest with
    | nil =>
      have hce : cur + count = ec := by simpa using hsum
      rw [if_pos hce]
      simp [summarizeLoop]
    | cons r rs =>
      have hlt : cur + count < ec := by
        simp only [List.map_cons, List.sum_cons] at hsum
        have hr : 0 < r.2 := hpos r (by simp)
        omega
      rw [if_neg (by omega : ¬ cur + count = ec)]
      rw [ih _ _ _ mx (fun p hp => hpos p (List.mem_cons_of_mem _ hp))
        (by simp only [List.map_cons, List.sum_cons] at hsum ⊢; omega)]
      simp only [List.map_cons]
      rw [List.getLast?_cons_cons]

theorem foldr_max_sorted :
    ∀ (l : List Nat), l.Pairwise (· < ·) →
      l.foldr Nat.max 0 = (l.getLast?).getD 0 := by
  intro l
  induction l with
  | nil => simp
  | cons a rest ih =>
    intro hs
    cases rest with
    | nil => simp
    | cons b rs =>
      have hs' := List.pairwise_cons.1 hs
      rw [List.foldr_cons, ih hs'.2, List.getLast?_cons_cons]
      have hmem : ((b :: rs).getLast?).getD 0 ∈ b :: rs := by
        cases hl : (b :: rs).getLast? with
        | none => simp at hl
        | some x =>
          simp only [Option.getD_some]
          exact List.mem_of_mem_getLast? hl
      have hab : a < ((b :: rs).getLast?).getD 0 := hs'.1 _ hmem
      exact Nat.max_eq_right (Nat.le_of_lt hab)

theorem largestNonzeroKey_sorted (map : List (Nat × Nat))
    (hsorted : map.Pairwise (fun a b => a.1 < b.1))
    (hpos : ∀ p ∈ map, 0 < p.2) :
    largestNonzeroKey map = ((map.map Prod.fst).getLast?).getD 0 := by
  unfold largestNonzeroKey
  rw [List.filter_eq_self.2 (by intro p hp; simpa using Nat.pos_iff_ne_zero.1 (hpos p hp))]
  exact foldr_max_sorted (map.map Prod.fst)
    (List.Pairwise.map Prod.fst (fun {a b} hab => hab) hsorted)

/-! ## Claim C6: `summarize_map` -/

/-- C6 counterexample.  `summarize_map` checks `current_idx == elem_count`
after each entry, so a trailing zero-count key steals the `max` field: on
the histogram `{0 ↦ 1, 1 ↦ 0}` the code reports `max = 1` although the
largest key with nonzero count is `0`. -/
theorem claim_C6_counterexample :
    (summarize_map [(0, 1), (1, 0)]).max = 1 ∧
    largestNonzeroKey [(0, 1), (1, 0)] = 0 := by
  decide

/-- C6, amended.  For every histogram map with strictly ascending keys and
*positive* counts (as produced by the stats feeder; over arbitrary counts
the `max` clause fails, see the counterexample): `average` is exactly
`Σ key·count / Σ count` (`0` for the empty histogram, the `f64` division
being modelled exactly in `Rat`), `median` is the key at which the
cumulative count first strictly exceeds `⌊total/2⌋`, and `max` is the
largest key with nonzero count. -/
theorem claim_C6_amended_summarize_map (map : List (Nat × Nat))
    (hsorted : map.Pairwise (fun a b => a.1 < b.1))
    (hpos : ∀ p ∈ map, 0 < p.2) :
    (summarize_map map).average =
      ((((map.map fun p => p.1 * p.2).sum : Nat) : Rat) /
        (((map.map Prod.snd).sum : Nat) : Rat)) ∧
    (map = [] → (summarize_map map).average = 0) ∧
    (summarize_map map).median =
      firstExceeding ((map.map Prod.snd).sum / 2) 0 map ∧
    (summarize_map map).max = largestNonzeroKey map := by
  refine ⟨?_, ?_, ?_, ?_⟩
  · show (if 0 < (map.map Prod.snd).sum then
        (((summarizeLoop ((map.map Prod.snd).sum) ((map.map Prod.snd).sum / 2)
          map 0 0 0 0).1 : Nat) : Rat) / (((map.map Prod.snd).sum : Nat) : Rat)
      else 0) = _
    rcases Nat.eq_zero_or_pos ((map.map Prod.snd).sum) with hz | hp
    · rw [if_neg (by omega)]
      have hmap : ∀ p ∈ map, p.2 = 0 := by
        intro p hpm
        have hsz := List.sum_eq_zero_iff.1 (by simpa using hz)
        exact hsz p.2 (List.mem_map.2 ⟨p, hpm, rfl⟩)
      have hall : (map.map fun p => p.1 * p.2).sum = 0 := by
        apply List.sum_eq_zero
        intro x hx
        obtain ⟨p, hpm, he⟩ := List.mem_map.1 hx
        rw [← he, hmap p hpm, Nat.mul_zero]
      rw [hall, hz]
      norm_num
    · rw [if_pos hp, summarizeLoop_sum, Nat.zero_add]
  · intro hmap
    subst hmap
    rfl
  · cases hm : map with
    | nil => rfl
    | cons q rest =>
      rw [← hm]
      show (summarizeLoop ((map.map Prod.snd).sum) ((map.map Prod.snd).sum / 2)
          map 0 0 0 0).2.1 = _
      have htot : 0 < (map.map Prod.snd).sum := by
        rw [hm]
        have hq : 0 < q.2 := hpos q (by rw [hm]; simp)
        simp only [List.map_cons, List.sum_cons]
        omega
      rw [summarizeLoop_median _ _ map 0 0 0 0 (by omega)]
      rw [if_neg (by omega)]
  · show (summarizeLoop ((map.map Prod.snd).sum) ((map.map Prod.snd).sum / 2)
        map 0 0 0 0).2.2 = _
    rw [summarizeLoop_max _ _ map 0 0 0 0 hpos (by omega),
      largestNonzeroKey_sorted map hsorted hpos]

theorem claim_C6_witness :
    (summarize_map [(1, 2), (3, 1), (10, 1)]).average =
      (((([((1 : Nat), (2 : Nat)), (3, 1), (10, 1)].map fun p => p.1 * p.2).sum : Nat) : Rat) /
        ((([((1 : Nat), (2 : Nat)), (3, 1), (10, 1)].map Prod.snd).sum : Nat) : Rat)) ∧
    (summarize_map [(1, 2), (3, 1), (10, 1)]).median =
      firstExceeding (([((1 : Nat), (2 : Nat)), (3, 1), (10, 1)].map Prod.snd).sum / 2) 0
        [(1, 2), (3, 1), (10, 1)] ∧
    (summarize_map [(1, 2), (3, 1), (10, 1)]).max =
      largestNonzeroKey [(1, 2), (3, 1), (10, 1)] := by
  have h := claim_C6_amended_summarize_map [(1, 2), (3, 1), (10, 1)]
    (by decide) (by decide)
  exact ⟨h.1, h.2.2.1, h.2.2.2⟩

/-! ## Claim C7: the progress tracker -/

/-- C7.  `ProgressTracker::new` fails exactly on a zero total and succeeds
on every positive total; with `total = 1`, a single `advance_by(1)` hands
the log callback exactly the twenty values `5, 10, ..., 100`, in order. -/
theorem claim_C7_progress_tracker :
    (∃ e, ProgressTracker.new 0 = .error e) ∧
    (∀ n, 0 < n → ∃ pt, ProgressTracker.new n = .ok pt) ∧
    (∀ pt, ProgressTracker.new 1 = .ok pt →
      (pt.advance_by 1).2 = [5, 10, 15, 20, 25, 30, 35, 40, 45, 50,
        55, 60, 65, 70, 75, 80, 85, 90, 95, 100]) := by
  refine ⟨⟨NULL_TOTAL_TO_PROCESS_ERROR, rfl⟩, ?_, ?_⟩
  · intro n hn
    refine ⟨⟨n, 0, 1, hn⟩, ?_⟩
    rw [ProgressTracker.new, dif_neg (Nat.pos_iff_ne_zero.1 hn)]
  · intro pt hpt
    rw [show ProgressTracker.new 1 = .ok ⟨1, 0, 1, Nat.one_pos⟩ from rfl] at hpt
    cases hpt
    simp [ProgressTracker.advance_by, advanceLoop, STEPS, PROGRESS_MULTIPLIER]

theorem claim_C7_witness :
    (∃ pt, ProgressTracker.new 3 = .ok pt) ∧
    (((⟨1, 0, 1, Nat.one_pos⟩ : ProgressTracker).advance_by 1).2 =
      [5, 10, 15, 20, 25, 30, 35, 40, 45, 50,
       55, 60, 65, 70, 75, 80, 85, 90, 95, 100]) :=
  ⟨claim_C7_progress_tracker.2.1 3 (by decide),
   claim_C7_progress_tracker.2.2 ⟨1, 0, 1, Nat.one_pos⟩ rfl⟩

/-! ## Lemmas: insertion and deletion in association lists -/

theorem lookupA_insertA_self {α : Type} (m : List (Nat × α)) (k : Nat) (v : α) :
    lookupA (insertA m k v) k = some v := by
  induction m with
  | nil => simp [insertA, lookupA]
  | cons p rest ih =>
    obtain ⟨k', v'⟩ := p
    simp only [insertA]
    by_cases h1 : k < k'
    · rw [if_pos h1]
      simp [lookupA]
    · rw [if_neg h1]
      by_cases h2 : k = k'
      · rw [if_pos h2]
        simp [lookupA]
      · rw [if_neg h2]
        have hne : k' ≠ k := fun he => h2 he.symm
        simp only [lookupA, if_neg hne]
        exact ih

theorem lookupA_insertA_ne {α : Type} (m : List (Nat × α)) (k k' : Nat) (v : α)
    (hne : k' ≠ k) : lookupA (insertA m k v) k' = lookupA m k' := by
  induction m with
  | nil => simp [insertA, lookupA, Ne.symm hne]
  | cons p rest ih =>
    obtain ⟨a, b⟩ := p
    simp only [insertA]
    by_cases h1 : k < a
    · rw [if_pos h1]
      simp only [lookupA, if_neg (Ne.symm hne)]
    · rw [if_neg h1]
      by_cases h2 : k = a
      · rw [if_pos h2]
        subst h2
        simp only [lookupA, if_neg (Ne.symm hne)]
      · rw [if_neg h2]
        simp only [lookupA]
        by_cases h3 : a = k'
        · rw [if_pos h3, if_pos h3]
        · rw [if_neg h3, if_neg h3]
          exact ih

theorem lookupA_eraseA_self {α : Type} (m : List (Nat × α)) (k : Nat) :
    lookupA (eraseA m k) k = none := by
  induction m with
  | nil => simp [eraseA, lookupA]
  | cons p rest ih =>
    obtain ⟨a, b⟩ := p
    simp only [eraseA]
    by_cases h1 : a = k
    · rw [if_pos h1]
      exact ih
    · rw [if_neg h1]
      simp only [lookupA, if_neg h1]
      exact ih

theorem lookupA_eraseA_ne {α : Type} (m : List (Nat × α)) (k k' : Nat)
    (hne : k' ≠ k) : lookupA (eraseA m k) k' = lookupA m k' := by
  induction m with
  | nil => simp [eraseA]
  | cons p rest ih =>
    obtain ⟨a, b⟩ := p
    simp only [eraseA]
    by_cases h1 : a = k
    · rw [if_pos h1]
      subst h1
      simp only [lookupA, if_neg (Ne.symm hne)]
      exact ih
    · rw [if_neg h1]
      simp only [lookupA]
      by_cases h3 : a = k'
      · rw [if_pos h3, if_pos h3]
      · rw [if_neg h3, if_neg h3]
        exact ih

/-! ## Lemmas: the slice extractor -/

theorem deployLoop_fields (source : Store) (block_hash : Nat) :
    ∀ (ds : List Nat) (dest dest' : Store),
      deployLoop source block_hash ds dest = .ok dest' →
      dest'.block_header = dest.block_header ∧
      dest'.block_body = dest.block_body ∧
      dest'.block_metadata = dest.block_metadata ∧
      dest'.transfer = dest.transfer := by
  intro ds
  induction ds with
  | nil =>
    intro dest dest' heq
    simp only [deployLoop] at heq
    cases heq
    exact ⟨rfl, rfl, rfl, rfl⟩
  | cons d rest ih =>
    intro dest dest' heq
    simp only [deployLoop] at heq
    rcases h1 : lookupA source.deploy d with _ | dv
    · rw [h1] at heq; cases heq
    · rw [h1] at heq
      simp only at heq
      rcases h2 : lookupA source.deploy_metadata d with _ | mv
      · rw [h2] at heq; cases heq
      · rw [h2] at heq
        cases mv with
        | corrupt => simp at heq
        | good metadata =>
          simp only at heq
          rcases h3 : lookupA metadata.execution_results block_hash with _ | er
          · rw [h3] at heq
            simp only at heq
            have hres := ih _ _ heq
            exact hres
          · rw [h3] at heq
            simp only at heq
            have hres := ih _ _ heq
            exact hres

theorem deployLoop_meta_inv (source : Store) (block_hash : Nat) :
    ∀ (ds : List Nat) (dest dest' : Store),
      deployLoop source block_hash ds dest = .ok dest' →
      (∀ k, lookupA dest.deploy_metadata k = none ∨
        ∃ er, lookupA dest.deploy_metadata k =
          some (.good (DeployMetadata.mk [(block_hash, er)]))) →
      ∀ k, lookupA dest'.deploy_metadata k = none ∨
        ∃ er, lookupA dest'.deploy_metadata k =
          some (.good (DeployMetadata.mk [(block_hash, er)])) := by
  intro ds
  induction ds with
  | nil =>
    intro dest dest' heq hinv
    simp only [deployLoop] at heq
    cases heq
    exact hinv
  | cons d rest ih =>
    intro dest dest' heq hinv
    simp only [deployLoop] at heq
    rcases h1 : lookupA source.deploy d with _ | dv
    · rw [h1] at heq; cases heq
    · rw [h1] at heq
      simp only at heq
      rcases h2 : lookupA source.deploy_metadata d with _ | mv
      · rw [h2] at heq; cases heq
      · rw [h2] at heq
        cases mv with
        | corrupt => simp at heq
        | good metadata =>
          simp only at heq
          rcases h3 : lookupA metadata.execution_results block_hash with _ | er
          · rw [h3] at heq
            simp only at heq
            exact ih _ _ heq hinv
          · rw [h3] at heq
            simp only at heq
            refine ih _ _ heq ?_
            intro k
            by_cases hk : k = d
            · subst hk
              right
              exact ⟨er, lookupA_insertA_self _ _ _⟩
            · rw [lookupA_insertA_ne _ _ _ _ hk]
              exact hinv k

/-! ## Claim C5: the slice invariant -/

theorem slice_post (source : Store) (block_hash : Nat) (hdr : BlockHeader)
    (deploy_hashes : List Nat) (dest0 dest' : Store)
    (hmeta0 : dest0.deploy_metadata = []) (hbm0 : dest0.block_metadata = [])
    (hhdr0 : lookupA dest0.block_header block_hash = some (.good hdr))
    (hdl : deployLoop source block_hash deploy_hashes dest0 = .ok dest') :
    lookupA dest'.block_metadata block_hash = none ∧
    lookupA dest'.block_header block_hash = some (.good hdr) ∧
    ∀ d, lookupA dest'.deploy_metadata d = none ∨
      ∃ er, lookupA dest'.deploy_metadata d =
        some (.good (DeployMetadata.mk [(block_hash, er)])) := by
  obtain ⟨hbh, _, hbm, _⟩ := deployLoop_fields source block_hash deploy_hashes dest0 dest' hdl
  refine ⟨?_, ?_, ?_⟩
  · rw [hbm, hbm0]
    rfl
  · rw [hbh]
    exact hhdr0
  · refine deployLoop_meta_inv source block_hash deploy_hashes dest0 dest' hdl ?_
    intro k
    rw [hmeta0]
    exact Or.inl rfl

/-- C5.  After a successful `transfer_block_info` into the freshly created
(empty) destination: `block_metadata[block_hash]` is absent (the slicer
never writes that table and `create_output_db` does not even create it),
`block_header[block_hash]` holds the source header, and for every deploy
hash of the copied body the destination's `deploy_metadata` entry is either
absent or holds exactly the single execution result keyed by `block_hash`. -/
theorem claim_C5_slice_invariant (source : Store) (block_hash : Nat)
    (dest' : Store) (root : Nat)
    (heq : transfer_block_info source emptyStore block_hash = .ok (dest', root)) :
    lookupA dest'.block_metadata block_hash = none ∧
    ∃ hdr, lookupA source.block_header block_hash = some (.good hdr) ∧
      lookupA dest'.block_header block_hash = some (.good hdr) ∧
      ∃ body, lookupA source.block_body hdr.body_hash = some (.good body) ∧
        ∀ d ∈ body.deploy_hashes,
          lookupA dest'.deploy_metadata d = none ∨
          ∃ er, lookupA dest'.deploy_metadata d =
            some (.good (DeployMetadata.mk [(block_hash, er)])) := by
  simp only [transfer_block_info] at heq
  rcases h1 : lookupA source.block_header block_hash with _ | hv
  · rw [h1] at heq; cases heq
  · rw [h1] at heq
    simp only at heq
    cases hv with
    | corrupt => simp at heq
    | good hdr =>
      simp only at heq
      rcases h2 : lookupA source.block_body hdr.body_hash with _ | bv
      · rw [h2] at heq; cases heq
      · rw [h2] at heq
        simp only at heq
        cases bv with
        | corrupt => simp at heq
        | good body =>
          simp only at heq
          rcases h3 : lookupA source.transfer block_hash with _ | tv <;>
            rw [h3] at heq <;> simp only at heq
          · rcases h4 : deployLoop source block_hash body.deploy_hashes
                { emptyStore with
                  block_header := insertA emptyStore.block_header block_hash (.good hdr),
                  block_body := insertA emptyStore.block_body hdr.body_hash (.good body) }
              with e | destF
            · rw [h4] at heq; simp at heq
            · rw [h4] at heq
              simp only [Except.ok.injEq, Prod.mk.injEq] at heq
              obtain ⟨hdest, _⟩ := heq
              subst hdest
              obtain ⟨c1, c2, c3⟩ := slice_post source block_hash hdr body.deploy_hashes
                _ _ rfl rfl (lookupA_insertA_self _ _ _) h4
              exact ⟨c1, hdr, rfl, c2, body, h2, fun d _ => c3 d⟩
          · rcases h4 : deployLoop source block_hash body.deploy_hashes
                { emptyStore with
                  block_header := insertA emptyStore.block_header block_hash (.good hdr),
                  block_body := insertA emptyStore.block_body hdr.body_hash (.good body),
                  transfer := insertA emptyStore.transfer block_hash tv }
              with e | destF
            · rw [h4] at heq; simp at heq
            · rw [h4] at heq
              simp only [Except.ok.injEq, Prod.mk.injEq] at heq
              obtain ⟨hdest, _⟩ := heq
              subst hdest
              obtain ⟨c1, c2, c3⟩ := slice_post source block_hash hdr body.deploy_hashes
                _ _ rfl rfl (lookupA_insertA_self _ _ _) h4
              exact ⟨c1, hdr, rfl, c2, body, h2, fun d _ => c3 d⟩

theorem claim_C5_witness :
    lookupA (Store.mk [(11, .good (BlockHeader.mk 1 1 1 false none 50 77))]
        [(50, .good (BlockBody.mk 0 [7] []))] [(7, 0)] []
        [(7, .good (DeployMetadata.mk [(11, 42)]))] []).block_metadata 11 = none ∧
    ∃ hdr, lookupA (Store.mk [(11, .good (BlockHeader.mk 1 1 1 false none 50 77))]
        [(50, .good (BlockBody.mk 0 [7] []))] [(7, 0)] [] [(7, .good (DeployMetadata.mk [(11, 42), (12, 9)]))]
        [(11, .good (BlockSignatures.mk 11 1 []))]).block_header 11 = some (.good hdr) ∧
      lookupA (Store.mk [(11, .good (BlockHeader.mk 1 1 1 false none 50 77))]
        [(50, .good (BlockBody.mk 0 [7] []))] [(7, 0)] []
        [(7, .good (DeployMetadata.mk [(11, 42)]))] []).block_header 11 = some (.good hdr) ∧
      ∃ body, lookupA (Store.mk [(11, .good (BlockHeader.mk 1 1 1 false none 50 77))]
          [(50, .good (BlockBody.mk 0 [7] []))] [(7, 0)] [] [(7, .good (DeployMetadata.mk [(11, 42), (12, 9)]))]
          [(11, .good (BlockSignatures.mk 11 1 []))]).block_body hdr.body_hash = some (.good body) ∧
        ∀ d ∈ body.deploy_hashes,
          lookupA (Store.mk [(11, .good (BlockHeader.mk 1 1 1 false none 50 77))]
            [(50, .good (BlockBody.mk 0 [7] []))] [(7, 0)] []
            [(7, .good (DeployMetadata.mk [(11, 42)]))] []).deploy_metadata d = none ∨
          ∃ er, lookupA (Store.mk [(11, .good (BlockHeader.mk 1 1 1 false none 50 77))]
            [(50, .good (BlockBody.mk 0 [7] []))] [(7, 0)] []
            [(7, .good (DeployMetadata.mk [(11, 42)]))] []).deploy_metadata d =
              some (.good (DeployMetadata.mk [(11, er)])) :=
  claim_C5_slice_invariant
    (Store.mk [(11, .good (BlockHeader.mk 1 1 1 false none 50 77))]
      [(50, .good (BlockBody.mk 0 [7] []))] [(7, 0)] [] [(7, .good (DeployMetadata.mk [(11, 42), (12, 9)]))]
      [(11, .good (BlockSignatures.mk 11 1 []))])
    11
    (Store.mk [(11, .good (BlockHeader.mk 1 1 1 false none 50 77))]
      [(50, .good (BlockBody.mk 0 [7] []))] [(7, 0)] []
      [(7, .good (DeployMetadata.mk [(11, 42)]))] [])
    77 (by rfl)

/-! ## Lemmas: histogram feeding -/

theorem bump_sum (m : List (Nat × Nat)) (k : Nat) :
    ((bump m k).map Prod.snd).sum = (m.map Prod.snd).sum + 1 := by
  induction m with
  | nil => simp [bump]
  | cons p rest ih =>
    obtain ⟨k', c⟩ := p
    simp only [bump]
    by_cases h1 : k < k'
    · rw [if_pos h1]
      simp only [List.map_cons, List.sum_cons]
      omega
    · rw [if_neg h1]
      by_cases h2 : k = k'
      · rw [if_pos h2]
        simp only [List.map_cons, List.sum_cons]
        omega
      · rw [if_neg h2]
        simp only [List.map_cons, List.sum_cons, ih]
        omega

theorem mem_bump (m : List (Nat × Nat)) (k : Nat) :
    ∀ x ∈ bump m k, x.1 = k ∨ x ∈ m := by
  induction m with
  | nil =>
    intro x hx
    simp only [bump, List.mem_singleton] at hx
    subst hx
    exact Or.inl rfl
  | cons p rest ih =>
    obtain ⟨k', c⟩ := p
    intro x hx
    simp only [bump] at hx
    by_cases h1 : k < k'
    · rw [if_pos h1] at hx
      rcases List.mem_cons.1 hx with h | h
      · subst h; exact Or.inl rfl
      · exact Or.inr h
    · rw [if_neg h1] at hx
      by_cases h2 : k = k'
      · rw [if_pos h2] at hx
        rcases List.mem_cons.1 hx with h | h
        · subst h; exact Or.inl h2.symm
        · exact Or.inr (List.mem_cons_of_mem _ h)
      · rw [if_neg h2] at hx
        rcases List.mem_cons.1 hx with h | h
        · subst h; exact Or.inr (List.mem_cons_self _ _)
        · rcases ih x h with h3 | h3
          · exact Or.inl h3
          · exact Or.inr (List.mem_cons_of_mem _ h3)

theorem bump_sorted (m : List (Nat × Nat)) (k : Nat)
    (hs : m.Pairwise (fun a b => a.1 < b.1)) :
    (bump m k).Pairwise (fun a b => a.1 < b.1) := by
  induction m with
  | nil => simp [bump]
  | cons p rest ih =>
    obtain ⟨k', c⟩ := p
    obtain ⟨hhead, hrest⟩ := List.pairwise_cons.1 hs
    simp only [bump]
    by_cases h1 : k < k'
    · rw [if_pos h1]
      refine List.pairwise_cons.2 ⟨?_, hs⟩
      intro b hb
      rcases List.mem_cons.1 hb with h | h
      · rw [h]; exact h1
      · exact Nat.lt_trans h1 (hhead b h)
    · rw [if_neg h1]
      by_cases h2 : k = k'
      · rw [if_pos h2]
        exact List.pairwise_cons.2 ⟨fun b hb => hhead b hb, hrest⟩
      · rw [if_neg h2]
        refine List.pairwise_cons.2 ⟨?_, ih hrest⟩
        intro b hb
        rcases mem_bump rest k b hb with h | h
        · rw [h]; omega
        · exact hhead b h

theorem bump_pos (m : List (Nat × Nat)) (k : Nat)
    (hp : ∀ p ∈ m, 0 < p.2) : ∀ p ∈ bump m k, 0 < p.2 := by
  induction m with
  | nil =>
    intro p hpm
    simp only [bump, List.mem_singleton] at hpm
    subst hpm
    exact Nat.one_pos
  | cons q rest ih =>
    obtain ⟨k', c⟩ := q
    intro p hpm
    simp only [bump] at hpm
    by_cases h1 : k < k'
    · rw [if_pos h1] at hpm
      rcases List.mem_cons.1 hpm with h | h
      · subst h; exact Nat.one_pos
      · exact hp p h
    · rw [if_neg h1] at hpm
      by_cases h2 : k = k'
      · rw [if_pos h2] at hpm
        rcases List.mem_cons.1 hpm with h | h
        · subst h; simp
        · exact hp p (List.mem_cons_of_mem _ h)
      · rw [if_neg h2] at hpm
        rcases List.mem_cons.1 hpm with h | h
        · subst h; exact hp (k', c) (List.mem_cons_self _ _)
        · exact ih (fun q hq => hp q (List.mem_cons_of_mem _ hq)) p h

theorem firstExceeding_mem (mp : Nat) :
    ∀ (l : List (Nat × Nat)) (cum : Nat),
      firstExceeding mp cum l = 0 ∨ firstExceeding mp cum l ∈ l.map Prod.fst := by
  intro l
  induction l with
  | nil => intro cum; exact Or.inl rfl
  | cons q rest ih =>
    intro cum
    obtain ⟨key, count⟩ := q
    simp only [firstExceeding]
    by_cases h : mp < cum + count
    · rw [if_pos h]
      exact Or.inr (by simp)
    · rw [if_neg h]
      rcases ih (cum + count) with h1 | h1
      · exact Or.inl h1
      · exact Or.inr (by simp only [List.map_cons]; exact List.mem_cons_of_mem _ h1)

theorem mem_le_foldr_max : ∀ (l : List Nat) (x : Nat), x ∈ l → x ≤ l.foldr Nat.max 0 := by
  intro l
  induction l with
  | nil => intro x hx; simp at hx
  | cons a rest ih =>
    intro x hx
    rcases List.mem_cons.1 hx with h | h
    · subst h
      exact Nat.le_max_left _ _
    · exact Nat.le_trans (ih x h) (Nat.le_max_right _ _)

theorem key_le_getLastD (l : List Nat) (hs : l.Pairwise (· < ·)) (x : Nat)
    (hx : x ∈ l) : x ≤ (l.getLast?).getD 0 := by
  rw [← foldr_max_sorted l hs]
  exact mem_le_foldr_max l x hx

theorem sum_mul_le (mx : Nat) :
    ∀ (m : List (Nat × Nat)), (∀ p ∈ m, p.1 ≤ mx) →
      (m.map fun p => p.1 * p.2).sum ≤ mx * (m.map Prod.snd).sum := by
  intro m
  induction m with
  | nil => intro _; simp
  | cons q rest ih =>
    intro hb
    obtain ⟨k, c⟩ := q
    simp only [List.map_cons, List.sum_cons, Nat.mul_add]
    have h1 : k * c ≤ mx * c :=
      Nat.mul_le_mul_right c (hb (k, c) (List.mem_cons_self _ _))
    have h2 := ih fun p hp => hb p (List.mem_cons_of_mem _ hp)
    omega

theorem summary_inv (map : List (Nat × Nat))
    (hs : map.Pairwise (fun a b => a.1 < b.1))
    (hp : ∀ p ∈ map, 0 < p.2) :
    (summarize_map map).median ≤ (summarize_map map).max ∧
    0 ≤ (summarize_map map).average ∧
    (summarize_map map).average ≤ ((summarize_map map).max : Rat) := by
  have hmax : (summarize_map map).max = ((map.map Prod.fst).getLast?).getD 0 := by
    show (summarizeLoop ((map.map Prod.snd).sum) ((map.map Prod.snd).sum / 2)
        map 0 0 0 0).2.2 = _
    exact summarizeLoop_max _ _ map 0 0 0 0 hp (by omega)
  have hkeys : (map.map Prod.fst).Pairwise (· < ·) :=
    List.Pairwise.map Prod.fst (fun {a b} hab => hab) hs
  have hmed : (summarize_map map).median ≤ (summarize_map map).max := by
    cases hm : map with
    | nil =>
      subst hm
      exact Nat.le_refl 0
    | cons q rest =>
      have htot : 0 < (map.map Prod.snd).sum := by
        rw [hm]
        have hq : 0 < q.2 := hp q (by rw [hm]; simp)
        simp only [List.map_cons, List.sum_cons]
        omega
      rw [← hm]
      have hmedeq : (summarize_map map).median =
          firstExceeding ((map.map Prod.snd).sum / 2) 0 map := by
        show (summarizeLoop ((map.map Prod.snd).sum) ((map.map Prod.snd).sum / 2)
            map 0 0 0 0).2.1 = _
        rw [summarizeLoop_median _ _ map 0 0 0 0 (by omega)]
        rw [if_neg (by omega)]
      rw [hmedeq, hmax]
      rcases firstExceeding_mem ((map.map Prod.snd).sum / 2) map 0 with h1 | h1
      · rw [h1]; exact Nat.zero_le _
      · exact key_le_getLastD _ hkeys _ h1
  have havg0 : (0 : Rat) ≤ (summarize_map map).average := by
    show (0 : Rat) ≤ (if 0 < (map.map Prod.snd).sum then
      (((summarizeLoop ((map.map Prod.snd).sum) ((map.map Prod.snd).sum / 2)
        map 0 0 0 0).1 : Nat) : Rat) / (((map.map Prod.snd).sum : Nat) : Rat) else 0)
    split
    · positivity
    · exact le_refl 0
  refine ⟨hmed, havg0, ?_⟩
  show (if 0 < (map.map Prod.snd).sum then
      (((summarizeLoop ((map.map Prod.snd).sum) ((map.map Prod.snd).sum / 2)
        map 0 0 0 0).1 : Nat) : Rat) / (((map.map Prod.snd).sum : Nat) : Rat) else 0) ≤ _
  split
  · next hpos =>
    rw [summarizeLoop_sum, Nat.zero_add]
    rw [div_le_iff₀ (by exact_mod_cast hpos)]
    have hb : ∀ p ∈ map, p.1 ≤ (summarize_map map).max := by
      intro p hpm
      rw [hmax]
      exact key_le_getLastD _ hkeys _ (List.mem_map.2 ⟨p, hpm, rfl⟩)
    have hnat := sum_mul_le ((summarize_map map).max) map hb
    exact_mod_cast hnat
  · exact_mod_cast Nat.zero_le _

theorem statsLoop_inv (store : Store) (f g : List ExecutionResult → Nat) :
    ∀ (l : List (Nat × HeaderVal)) (stats stats' : ExecutionResultsStats),
      statsLoop store f g l stats = .ok stats' →
      stats.execution_results_size.Pairwise (fun a b => a.1 < b.1) →
      (∀ p ∈ stats.execution_results_size, 0 < p.2) →
      stats.chunk_count.Pairwise (fun a b => a.1 < b.1) →
      (∀ p ∈ stats.chunk_count, 0 < p.2) →
      stats'.execution_results_size.Pairwise (fun a b => a.1 < b.1) ∧
      (∀ p ∈ stats'.execution_results_size, 0 < p.2) ∧
      stats'.chunk_count.Pairwise (fun a b => a.1 < b.1) ∧
      (∀ p ∈ stats'.chunk_count, 0 < p.2) ∧
      (stats'.execution_results_size.map Prod.snd).sum =
        (stats.execution_results_size.map Prod.snd).sum + l.length ∧
      (stats'.chunk_count.map Prod.snd).sum =
        (stats.chunk_count.map Prod.snd).sum + l.length := by
  intro l
  induction l with
  | nil =>
    intro stats stats' heq h1 h2 h3 h4
    simp only [statsLoop] at heq
    cases heq
    exact ⟨h1, h2, h3, h4, by simp, by simp⟩
  | cons q rest ih =>
    intro stats stats' heq h1 h2 h3 h4
    obtain ⟨block_hash, hv⟩ := q
    simp only [statsLoop] at heq
    cases hv with
    | corrupt => cases heq
    | good header =>
      simp only at heq
      rcases hb : lookupA store.block_body header.body_hash with _ | bv
      · rw [hb] at heq; cases heq
      · rw [hb] at heq
        cases bv with
        | corrupt => cases heq
        | good block_body =>
          simp only at heq
          rcases hc : collectResults store block_hash block_body.deploy_hashes with e | ers
          · rw [hc] at heq; cases heq
          · rw [hc] at heq
            simp only at heq
            have hres := ih _ _ heq
              (bump_sorted _ _ h1) (bump_pos _ _ h2)
              (bump_sorted _ _ h3) (bump_pos _ _ h4)
            obtain ⟨r1, r2, r3, r4, r5, r6⟩ := hres
            refine ⟨r1, r2, r3, r4, ?_, ?_⟩
            · rw [r5]
              simp only [ExecutionResultsStats.feed]
              rw [bump_sum]
              simp only [List.length_cons]
              omega
            · rw [r6]
              simp only [ExecutionResultsStats.feed]
              rw [bump_sum]
              simp only [List.length_cons]
              omega

/-! ## Claim C9: summarizer run invariants -/

/-- C9.  For every successful summarizer scan over a store with `n` block
headers: each histogram's counts sum to `n` (the stats are fed exactly once
per header, including blocks with no execution results), and both resulting
`CollectionStatistics` satisfy `median ≤ max` and `0 ≤ average ≤ max`.
The two opaque serialized-size functions are arbitrary parameters. -/
theorem claim_C9_summarizer_invariants (store : Store)
    (f g : List ExecutionResult → Nat) (stats : ExecutionResultsStats)
    (heq : get_execution_results_stats store f g = .ok stats) :
    (stats.execution_results_size.map Prod.snd).sum = store.block_header.length ∧
    (stats.chunk_count.map Prod.snd).sum = store.block_header.length ∧
    ((toSummary stats).execution_results_size.median ≤
      (toSummary stats).execution_results_size.max ∧
     0 ≤ (toSummary stats).execution_results_size.average ∧
     (toSummary stats).execution_results_size.average ≤
      ((toSummary stats).execution_results_size.max : Rat)) ∧
    ((toSummary stats).chunks_statistics.median ≤
      (toSummary stats).chunks_statistics.max ∧
     0 ≤ (toSummary stats).chunks_statistics.average ∧
     (toSummary stats).chunks_statistics.average ≤
      ((toSummary stats).chunks_statistics.max : Rat)) := by
  have hres := statsLoop_inv store f g store.block_header ⟨[], []⟩ stats heq
    List.Pairwise.nil (by intro p hp; cases hp)
    List.Pairwise.nil (by intro p hp; cases hp)
  obtain ⟨r1, r2, r3, r4, r5, r6⟩ := hres
  refine ⟨by simpa using r5, by simpa using r6, ?_, ?_⟩
  · exact summary_inv stats.execution_results_size r1 r2
  · exact summary_inv stats.chunk_count r3 r4

theorem claim_C9_witness :
    (((ExecutionResultsStats.mk [(0, 1)] [(0, 1)]).execution_results_size.map Prod.snd).sum =
      (Store.mk [(11, .good (BlockHeader.mk 1 1 1 false none 50 77))]
        [(50, .good (BlockBody.mk 0 [] []))] [] [] [] []).block_header.length) ∧
    (((ExecutionResultsStats.mk [(0, 1)] [(0, 1)]).chunk_count.map Prod.snd).sum =
      (Store.mk [(11, .good (BlockHeader.mk 1 1 1 false none 50 77))]
        [(50, .good (BlockBody.mk 0 [] []))] [] [] [] []).block_header.length) ∧
    (((toSummary (ExecutionResultsStats.mk [(0, 1)] [(0, 1)])).execution_results_size.median ≤
      (toSummary (ExecutionResultsStats.mk [(0, 1)] [(0, 1)])).execution_results_size.max ∧
     0 ≤ (toSummary (ExecutionResultsStats.mk [(0, 1)] [(0, 1)])).execution_results_size.average ∧
     (toSummary (ExecutionResultsStats.mk [(0, 1)] [(0, 1)])).execution_results_size.average ≤
      ((toSummary (ExecutionResultsStats.mk [(0, 1)] [(0, 1)])).execution_results_size.max : Rat))) ∧
    (((toSummary (ExecutionResultsStats.mk [(0, 1)] [(0, 1)])).chunks_statistics.median ≤
      (toSummary (ExecutionResultsStats.mk [(0, 1)] [(0, 1)])).chunks_statistics.max ∧
     0 ≤ (toSummary (ExecutionResultsStats.mk [(0, 1)] [(0, 1)])).chunks_statistics.average ∧
     (toSummary (ExecutionResultsStats.mk [(0, 1)] [(0, 1)])).chunks_statistics.average ≤
      ((toSummary (ExecutionResultsStats.mk [(0, 1)] [(0, 1)])).chunks_statistics.max : Rat))) :=
  claim_C9_summarizer_invariants
    (Store.mk [(11, .good (BlockHeader.mk 1 1 1 false none 50 77))]
      [(50, .good (BlockBody.mk 0 [] []))] [] [] [] [])
    (fun _ => 0) (fun _ => 0)
    (ExecutionResultsStats.mk [(0, 1)] [(0, 1)]) (by rfl)

/-! ## Lemmas: fatal and non-fatal missing records -/

theorem collectResults_err (store : Store) (block_hash : Nat) (d : Nat) :
    ∀ (ds : List Nat), d ∈ ds →
      lookupA store.deploy_metadata d = none →
      ∃ e, collectResults store block_hash ds = .error e := by
  intro ds
  induction ds with
  | nil => intro h; cases h
  | cons d0 rest ih =>
    intro hmem hnone
    simp only [collectResults]
    rcases h1 : lookupA store.deploy_metadata d0 with _ | mv
    · exact ⟨.Database, rfl⟩
    · cases mv with
      | corrupt => exact ⟨.Parsing block_hash "deploy_metadata", rfl⟩
      | good metadata =>
        have hd0 : d0 ≠ d := by
          intro he
          rw [he, hnone] at h1
          cases h1
        have hrest : d ∈ rest := by
          rcases List.mem_cons.1 hmem with h | h
          · exact absurd h.symm hd0
          · exact h
        obtain ⟨e, he⟩ := ih hrest hnone
        refine ⟨e, ?_⟩
        rw [he]

theorem statsLoop_err (store : Store) (f g : List ExecutionResult → Nat)
    (bh : Nat) (hdr : BlockHeader) (body : BlockBody) (d : Nat)
    (hbody : lookupA store.block_body hdr.body_hash = some (.good body))
    (hd : d ∈ body.deploy_hashes)
    (hnone : lookupA store.deploy_metadata d = none) :
    ∀ (l : List (Nat × HeaderVal)) (stats : ExecutionResultsStats),
      (bh, HeaderVal.good hdr) ∈ l →
      ∃ e, statsLoop store f g l stats = .error e := by
  intro l
  induction l with
  | nil => intro stats h; cases h
  | cons q rest ih =>
    intro stats hmem
    obtain ⟨bh0, hv0⟩ := q
    simp only [statsLoop]
    cases hv0 with
    | corrupt => exact ⟨.Parsing bh0 "block_header", rfl⟩
    | good hdr0 =>
      simp only
      rcases h1 : lookupA store.block_body hdr0.body_hash with _ | bv
      · exact ⟨.Database, rfl⟩
      · cases bv with
        | corrupt => exact ⟨.Parsing bh0 "block_body", rfl⟩
        | good body0 =>
          simp only
          rcases h2 : collectResults store bh0 body0.deploy_hashes with e | ers
          · exact ⟨e, rfl⟩
          · rcases List.mem_cons.1 hmem with hh | hh
            · exfalso
              have hh0 : hdr0 = hdr :=
                (HeaderVal.good.inj (congrArg Prod.snd hh)).symm
              rw [hh0, hbody] at h1
              have hbody0 : body0 = body := (BodyVal.good.inj (Option.some.inj h1)).symm
              obtain ⟨e, he⟩ := collectResults_err store bh0 d body.deploy_hashes
                (hbody0 ▸ hd) hnone
              rw [hbody0, he] at h2
              cases h2
            · obtain ⟨e, he⟩ := ih (stats.feed f g ers) hh
              exact ⟨e, he⟩

theorem deployLoop_err (source : Store) (block_hash d : Nat)
    (hnone : lookupA source.deploy_metadata d = none) :
    ∀ (ds : List Nat) (dest : Store), d ∈ ds →
      ∃ e, deployLoop source block_hash ds dest = .error e := by
  intro ds
  induction ds with
  | nil => intro dest h; cases h
  | cons d0 rest ih =>
    intro dest hmem
    simp only [deployLoop]
    rcases h1 : lookupA source.deploy d0 with _ | dv
    · exact ⟨.Database, rfl⟩
    · simp only
      rcases h2 : lookupA source.deploy_metadata d0 with _ | mv
      · exact ⟨.Database, rfl⟩
      · cases mv with
        | corrupt => exact ⟨.Parsing block_hash "deploy_metadata", rfl⟩
        | good metadata =>
          simp only
          have hd0 : d0 ≠ d := by
            intro he
            rw [he, hnone] at h2
            cases h2
          have hrest : d ∈ rest := by
            rcases List.mem_cons.1 hmem with h | h
            · exact absurd h.symm hd0
            · exact h
          rcases h3 : lookupA metadata.execution_results block_hash with _ | er
          · obtain ⟨e, he⟩ := ih _ hrest
            exact ⟨e, he⟩
          · obtain ⟨e, he⟩ := ih _ hrest
            exact ⟨e, he⟩

theorem deployLoop_ok (source : Store) (block_hash : Nat) :
    ∀ (ds : List Nat) (dest : Store),
      (∀ d ∈ ds, (∃ v, lookupA source.deploy d = some v) ∧
        ∃ md, lookupA source.deploy_metadata d = some (.good md)) →
      ∃ dest', deployLoop source block_hash ds dest = .ok dest' := by
  intro ds
  induction ds with
  | nil => intro dest _; exact ⟨dest, rfl⟩
  | cons d0 rest ih =>
    intro dest hall
    obtain ⟨⟨v, hv⟩, ⟨md, hmd⟩⟩ := hall d0 (List.mem_cons_self _ _)
    have hrest : ∀ d ∈ rest, (∃ v, lookupA source.deploy d = some v) ∧
        ∃ md, lookupA source.deploy_metadata d = some (.good md) :=
      fun d hd => hall d (List.mem_cons_of_mem _ hd)
    simp only [deployLoop]
    rw [hv]
    simp only
    rw [hmd]
    simp only
    rcases h3 : lookupA md.execution_results block_hash with _ | er
    · exact ih _ hrest
    · exact ih _ hrest

theorem deployLoop_no_write (source : Store) (block_hash d : Nat)
    (md : DeployMetadata)
    (hmd : lookupA source.deploy_metadata d = some (.good md))
    (hno : lookupA md.execution_results block_hash = none) :
    ∀ (ds : List Nat) (dest dest' : Store),
      lookupA dest.deploy_metadata d = none →
      deployLoop source block_hash ds dest = .ok dest' →
      lookupA dest'.deploy_metadata d = none := by
  intro ds
  induction ds with
  | nil =>
    intro dest dest' hd heq
    cases heq
    exact hd
  | cons d0 rest ih =>
    intro dest dest' hd heq
    simp only [deployLoop] at heq
    rcases h1 : lookupA source.deploy d0 with _ | dv
    · rw [h1] at heq; cases heq
    · rw [h1] at heq
      simp only at heq
      rcases h2 : lookupA source.deploy_metadata d0 with _ | mv
      · rw [h2] at heq; cases heq
      · rw [h2] at heq
        cases mv with
        | corrupt => simp at heq
        | good metadata =>
          simp only at heq
          rcases h3 : lookupA metadata.execution_results block_hash with _ | er
          · rw [h3] at heq
            simp only at heq
            refine ih _ _ ?_ heq
            exact hd
          · rw [h3] at heq
            simp only at heq
            by_cases hdd : d0 = d
            · exfalso
              subst hdd
              rw [hmd] at h2
              have : metadata = md := by cases h2; rfl
              subst this
              rw [hno] at h3
              cases h3
            · refine ih _ _ ?_ heq
              rw [lookupA_insertA_ne _ _ _ _ (by intro he; exact hdd he.symm)]
              exact hd

/-! ## Claim C10: missing-record handling -/

/-- C10.  Missing `deploy_metadata` records are fatal while missing
`transfer` and `block_metadata` records are only logged, and the slicer
projects away deploys with no result for the target block:
(a) the summarizer scan errors whenever a scanned block's body lists a
deploy with no `deploy_metadata` record;
(b) `transfer_block_info` errors in the same situation;
(c) a missing `transfer[block_hash]` record alone does not prevent
`transfer_block_info` from succeeding;
(d) the purger skips (warn-and-continue) a block with no `block_metadata`
record, proceeding over the remaining heights with the refreshed cache;
(e) when a deploy's metadata exists but holds no execution result keyed by
the target block hash, the slicer writes no `deploy_metadata` record at all
for that deploy. -/
theorem claim_C10_missing_record_handling :
    (∀ (store : Store) (f g : List ExecutionResult → Nat) (bh : Nat)
        (hdr : BlockHeader) (body : BlockBody) (d : Nat),
        (bh, HeaderVal.good hdr) ∈ store.block_header →
        lookupA store.block_body hdr.body_hash = some (.good body) →
        d ∈ body.deploy_hashes →
        lookupA store.deploy_metadata d = none →
        ∃ e, get_execution_results_stats store f g = .error e) ∧
    (∀ (source dest : Store) (bh : Nat) (hdr : BlockHeader) (body : BlockBody) (d : Nat),
        lookupA source.block_header bh = some (.good hdr) →
        lookupA source.block_body hdr.body_hash = some (.good body) →
        d ∈ body.deploy_hashes →
        lookupA source.deploy_metadata d = none →
        ∃ e, transfer_block_info source dest bh = .error e) ∧
    (∀ (source dest : Store) (bh : Nat) (hdr : BlockHeader) (body : BlockBody),
        lookupA source.block_header bh = some (.good hdr) →
        lookupA source.block_body hdr.body_hash = some (.good body) →
        lookupA source.transfer bh = none →
        (∀ d ∈ body.deploy_hashes, (∃ v, lookupA source.deploy d = some v) ∧
          ∃ md, lookupA source.deploy_metadata d = some (.good md)) →
        ∃ r, transfer_block_info source dest bh = .ok r) ∧
    (∀ (headerDb : List (Nat × HeaderVal)) (indices : Indices) (full : Bool)
        (rest : List Nat) (ew : EraWeights) (b : Bool) (ew' : EraWeights)
        (height hash : Nat) (hdr : BlockHeader) (db : List (Nat × SigVal)),
        lookupA indices.heights height = some (hash, hdr) →
        hdr.era_id ≠ 0 →
        refresh_weights_for_era ew headerDb indices hdr.era_id = .ok (b, ew') →
        lookupA db hash = none →
        purgeLoop headerDb indices full (height :: rest) ew db =
          purgeLoop headerDb indices full rest ew' db) ∧
    (∀ (source : Store) (bh d : Nat) (dest' : Store) (root : Nat) (md : DeployMetadata),
        transfer_block_info source emptyStore bh = .ok (dest', root) →
        lookupA source.deploy_metadata d = some (.good md) →
        lookupA md.execution_results bh = none →
        lookupA dest'.deploy_metadata d = none) := by
  refine ⟨?_, ?_, ?_, ?_, ?_⟩
  · intro store f g bh hdr body d hmem hbody hd hnone
    exact statsLoop_err store f g bh hdr body d hbody hd hnone
      store.block_header ⟨[], []⟩ hmem
  · intro source dest bh hdr body d hhdr hbody hd hnone
    simp only [transfer_block_info, hhdr, hbody]
    rcases h3 : lookupA source.transfer bh with _ | tv <;> simp only
    · obtain ⟨e, he⟩ := deployLoop_err source bh d hnone body.deploy_hashes _ hd
      rw [he]
      exact ⟨e, rfl⟩
    · obtain ⟨e, he⟩ := deployLoop_err source bh d hnone body.deploy_hashes _ hd
      rw [he]
      exact ⟨e, rfl⟩
  · intro source dest bh hdr body hhdr hbody htr hall
    simp only [transfer_block_info, hhdr, hbody, htr]
    obtain ⟨destF, hok⟩ := deployLoop_ok source bh body.deploy_hashes _ hall
    rw [hok]
    exact ⟨(destF, hdr.state_root_hash), rfl⟩
  · intro headerDb indices full rest ew b ew' height hash hdr db hh hng href hsig
    simp only [purgeLoop, hh, if_neg hng, href, hsig]
  · intro source bh d dest' root md hrun hmd hno
    simp only [transfer_block_info] at hrun
    rcases h1 : lookupA source.block_header bh with _ | hv
    · rw [h1] at hrun; cases hrun
    · rw [h1] at hrun
      simp only at hrun
      cases hv with
      | corrupt => simp at hrun
      | good hdr =>
        simp only at hrun
        rcases h2 : lookupA source.block_body hdr.body_hash with _ | bv
        · rw [h2] at hrun; cases hrun
        · rw [h2] at hrun
          simp only at hrun
          cases bv with
          | corrupt => simp at hrun
          | good body =>
            simp only at hrun
            rcases h3 : lookupA source.transfer bh with _ | tv <;>
              rw [h3] at hrun <;> simp only at hrun
            · rcases h4 : deployLoop source bh body.deploy_hashes
                  { emptyStore with
                    block_header := insertA emptyStore.block_header bh (.good hdr),
                    block_body := insertA emptyStore.block_body hdr.body_hash (.good body) }
                with e | destF
              · rw [h4] at hrun; simp at hrun
              · rw [h4] at hrun
                simp only [Except.ok.injEq, Prod.mk.injEq] at hrun
                obtain ⟨hdest, _⟩ := hrun
                subst hdest
                exact deployLoop_no_write source bh d md hmd hno
                  body.deploy_hashes _ _ (by rfl) h4
            · rcases h4 : deployLoop source bh body.deploy_hashes
                  { emptyStore with
                    block_header := insertA emptyStore.block_header bh (.good hdr),
                    block_body := insertA emptyStore.block_body hdr.body_hash (.good body),
                    transfer := insertA emptyStore.transfer bh tv }
                with e | destF
              · rw [h4] at hrun; simp at hrun
              · rw [h4] at hrun
                simp only [Except.ok.injEq, Prod.mk.injEq] at hrun
                obtain ⟨hdest, _⟩ := hrun
                subst hdest
                exact deployLoop_no_write source bh d md hmd hno
                  body.deploy_hashes _ _ (by rfl) h4

theorem claim_C10_witness :
    ∃ e, get_execution_results_stats
      (Store.mk [(1, .good (BlockHeader.mk 5 1 1 false none 2 9))]
        [(2, .good (BlockBody.mk 0 [3] []))] [(3, 0)] [] [] [])
      (fun _ => 0) (fun _ => 0) = .error e :=
  claim_C10_missing_record_handling.1
    (Store.mk [(1, .good (BlockHeader.mk 5 1 1 false none 2 9))]
      [(2, .good (BlockBody.mk 0 [3] []))] [(3, 0)] [] [] [])
    (fun _ => 0) (fun _ => 0) 1 (BlockHeader.mk 5 1 1 false none 2 9)
    (BlockBody.mk 0 [3] []) 3
    (by decide) (by rfl) (by decide) (by rfl)

/-! ## Lemmas: height sets -/

theorem mem_insertNat (k x : Nat) :
    ∀ (l : List Nat), x ∈ insertNat k l ↔ x = k ∨ x ∈ l := by
  intro l
  induction l with
  | nil => simp [insertNat]
  | cons a rest ih =>
    simp only [insertNat]
    by_cases h1 : k < a
    · rw [if_pos h1]
      simp [List.mem_cons]
    · rw [if_neg h1]
      by_cases h2 : k = a
      · rw [if_pos h2]
        subst h2
        simp only [List.mem_cons]
        constructor
        · exact Or.inr
        · rintro (h | h)
          · exact Or.inl (h ▸ rfl)
          · exact h
      · rw [if_neg h2]
        simp only [List.mem_cons, ih]
        constructor
        · rintro (h | h | h)
          · exact Or.inr (Or.inl h)
          · exact Or.inl h
          · exact Or.inr (Or.inr h)
        · rintro (h | h | h)
          · exact Or.inr (Or.inl h)
          · exact Or.inl h
          · exact Or.inr (Or.inr h)

theorem insertNat_sorted (k : Nat) :
    ∀ (l : List Nat), l.Pairwise (· < ·) → (insertNat k l).Pairwise (· < ·) := by
  intro l
  induction l with
  | nil => intro _; simp [insertNat]
  | cons a rest ih =>
    intro hs
    obtain ⟨hhead, hrest⟩ := List.pairwise_cons.1 hs
    simp only [insertNat]
    by_cases h1 : k < a
    · rw [if_pos h1]
      refine List.pairwise_cons.2 ⟨?_, hs⟩
      intro b hb
      rcases List.mem_cons.1 hb with h | h
      · exact h ▸ h1
      · exact Nat.lt_trans h1 (hhead b h)
    · rw [if_neg h1]
      by_cases h2 : k = a
      · rw [if_pos h2]
        exact hs
      · rw [if_neg h2]
        refine List.pairwise_cons.2 ⟨?_, ih hrest⟩
        intro b hb
        rcases (mem_insertNat k b rest).1 hb with h | h
        · subst h; omega
        · exact hhead b h

theorem natSetOf_sorted (l : List Nat) : (natSetOf l).Pairwise (· < ·) := by
  induction l with
  | nil => simp [natSetOf]
  | cons a rest ih => exact insertNat_sorted a _ ih

theorem mem_natSetOf (x : Nat) :
    ∀ (l : List Nat), x ∈ natSetOf l ↔ x ∈ l := by
  intro l
  induction l with
  | nil => simp [natSetOf]
  | cons a rest ih =>
    show x ∈ insertNat a (natSetOf rest) ↔ _
    rw [mem_insertNat, ih]
    simp

theorem natSetOf_nodup (l : List Nat) : (natSetOf l).Nodup :=
  (natSetOf_sorted l).imp fun hab => Nat.ne_of_lt hab

theorem natSetOf_nonempty_of_mem {x : Nat} {l : List Nat} (h : x ∈ l) :
    (natSetOf l).isEmpty = false := by
  have hm : x ∈ natSetOf l := (mem_natSetOf x l).2 h
  cases he : natSetOf l with
  | nil => rw [he] at hm; cases hm
  | cons a rest => rfl

/-! ## Lemmas: the purger index build -/

theorem buildLoop_inv (headerDb : List (Nat × HeaderVal)) (needed : List Nat) :
    ∀ (l : List (Nat × HeaderVal)) (idx0 : Indices) (lb : List (Nat × Nat))
      (idx : Indices) (lb' : List (Nat × Nat)),
      buildLoop needed l idx0 lb = .ok (idx, lb') →
      (∀ p ∈ l, lookupA headerDb p.1 = some p.2) →
      (∀ ht hs hd, lookupA idx0.heights ht = some (hs, hd) →
        lookupA headerDb hs = some (.good hd) ∧ hd.height = ht) →
      ∀ ht hs hd, lookupA idx.heights ht = some (hs, hd) →
        lookupA headerDb hs = some (.good hd) ∧ hd.height = ht := by
  intro l
  induction l with
  | nil =>
    intro idx0 lb idx lb' heq _ hinv
    simp only [buildLoop] at heq
    cases heq
    exact hinv
  | cons q rest ih =>
    intro idx0 lb idx lb' heq hl hinv
    obtain ⟨block_hash, hv⟩ := q
    simp only [buildLoop] at heq
    cases hv with
    | corrupt => cases heq
    | good block_header =>
      simp only at heq
      have hdb : lookupA headerDb block_hash = some (.good block_header) :=
        hl (block_hash, .good block_header) (List.mem_cons_self _ _)
      have hl' : ∀ p ∈ rest, lookupA headerDb p.1 = some p.2 :=
        fun p hp => hl p (List.mem_cons_of_mem _ hp)
      set idx1 := (if block_header.is_switch_block then { idx0 with switch_blocks := insertA idx0.switch_blocks (block_header.era_id + 1) block_hash } else idx0) with hidx1
      have hh1 : idx1.heights = idx0.heights := by
        rw [hidx1]
        split <;> rfl
      have hinv1 : ∀ ht hs hd, lookupA idx1.heights ht = some (hs, hd) →
          lookupA headerDb hs = some (.good hd) ∧ hd.height = ht := by
        rw [hh1]
        exact hinv
      by_cases hneed : needed.contains block_header.height = true
      · rw [if_pos hneed] at heq
        rcases hdup : (lookupA idx1.heights block_header.height).isSome with _ | _
        · rw [hdup] at heq
          simp only [Bool.false_eq_true, if_false] at heq
          refine ih _ _ _ _ heq hl' ?_
          intro ht hs hd hlook
          by_cases hht : ht = block_header.height
          · subst hht
            rw [lookupA_insertA_self] at hlook
            have hpair := Option.some.inj hlook
            have h1 : block_hash = hs := congrArg Prod.fst hpair
            have h2 : block_header = hd := congrArg Prod.snd hpair
            subst h1
            subst h2
            exact ⟨hdb, rfl⟩
          · rw [lookupA_insertA_ne _ _ _ _ hht] at hlook
            exact hinv1 ht hs hd hlook
        · rw [hdup] at heq
          simp only [if_true] at heq
          cases heq
      · rw [if_neg hneed] at heq
        exact ih _ _ _ _ heq hl' hinv1

theorem build_indices_inv (headerDb : List (Nat × HeaderVal)) (needed : List Nat)
    (idx : Indices) (hknd : (headerDb.map Prod.fst).Nodup)
    (heq : build_indices headerDb needed = .ok idx) :
    ∀ ht hs hd, lookupA idx.heights ht = some (hs, hd) →
      lookupA headerDb hs = some (.good hd) ∧ hd.height = ht := by
  simp only [build_indices] at heq
  rcases hemp : headerDb.isEmpty with _ | _
  · rw [hemp] at heq
    simp only [Bool.false_eq_true, if_false] at heq
    rcases hbl : buildLoop needed headerDb .default [] with e | pr
    · rw [hbl] at heq; cases heq
    · rw [hbl] at heq
      obtain ⟨idx1, lb1⟩ := pr
      simp only at heq
      have hidx : idx.heights = idx1.heights := by
        cases heq
        rfl
      intro ht hs hd hlook
      rw [hidx] at hlook
      refine buildLoop_inv headerDb needed headerDb .default [] idx1 lb1 hbl ?_ ?_ ht hs hd hlook
      · intro p hp
        obtain ⟨k, v⟩ := p
        exact lookupA_of_mem hknd hp
      · intro ht' hs' hd' hlook'
        cases hlook'
  · rw [hemp] at heq
    simp only [if_true] at heq
    cases heq

/-! ## Lemmas: the purge passes -/

theorem lookupA_eraseA_none {α : Type} (m : List (Nat × α)) (k hash : Nat)
    (h : lookupA m hash = none) : lookupA (eraseA m k) hash = none := by
  by_cases hk : hash = k
  · subst hk
    exact lookupA_eraseA_self m hash
  · rw [lookupA_eraseA_ne m k hash hk]
    exact h

theorem purgeLoop_no_touch (headerDb : List (Nat × HeaderVal)) (indices : Indices)
    (full : Bool) (hash : Nat) :
    ∀ (l : List Nat) (ew : EraWeights) (db : List (Nat × SigVal))
      (r : EraWeights × List (Nat × SigVal)),
      purgeLoop headerDb indices full l ew db = .ok r →
      (∀ h' ∈ l, ∀ e, lookupA indices.heights h' = some e → e.1 ≠ hash) →
      lookupA r.2 hash = lookupA db hash := by
  intro l
  induction l with
  | nil =>
    intro ew db r heq _
    simp only [purgeLoop] at heq
    cases heq
    rfl
  | cons h0 rest ih =>
    intro ew db r heq hno
    have hno' : ∀ h' ∈ rest, ∀ e, lookupA indices.heights h' = some e → e.1 ≠ hash :=
      fun h' hh' => hno h' (List.mem_cons_of_mem _ hh')
    simp only [purgeLoop] at heq
    rcases h1 : lookupA indices.heights h0 with _ | e0
    · rw [h1] at heq
      exact ih _ _ _ heq hno'
    · rw [h1] at heq
      obtain ⟨hash0, hdr0⟩ := e0
      have hne : hash0 ≠ hash := hno h0 (List.mem_cons_self _ _) (hash0, hdr0) h1
      simp only at heq
      by_cases hg : hdr0.era_id = 0
      · rw [if_pos hg] at heq
        exact ih _ _ _ heq hno'
      · rw [if_neg hg] at heq
        rcases h2 : refresh_weights_for_era ew headerDb indices hdr0.era_id with e | p2
        · rw [h2] at heq; cases heq
        · rw [h2] at heq
          obtain ⟨b2, ew2⟩ := p2
          simp only at heq
          rcases h3 : lookupA db hash0 with _ | sv
          · rw [h3] at heq
            exact ih _ _ _ heq hno'
          · rw [h3] at heq
            cases sv with
            | corrupt => simp at heq
            | good sigs =>
              simp only at heq
              cases full with
              | true =>
                rw [ih _ _ _ heq hno']
                exact lookupA_eraseA_ne db hash0 hash (Ne.symm hne)
              | false =>
                rcases h4 : strip_signatures sigs ew2.weights with _ | stripped
                · rw [h4] at heq
                  simp only at heq
                  exact ih _ _ _ heq hno'
                · rw [h4] at heq
                  simp only at heq
                  rw [ih _ _ _ heq hno']
                  exact lookupA_insertA_ne db hash0 hash _ (Ne.symm hne)

theorem purgeLoop_full_stays_none (headerDb : List (Nat × HeaderVal))
    (indices : Indices) (hash : Nat) :
    ∀ (l : List Nat) (ew : EraWeights) (db : List (Nat × SigVal))
      (r : EraWeights × List (Nat × SigVal)),
      purgeLoop headerDb indices true l ew db = .ok r →
      lookupA db hash = none →
      lookupA r.2 hash = none := by
  intro l
  induction l with
  | nil =>
    intro ew db r heq hn
    simp only [purgeLoop] at heq
    cases heq
    exact hn
  | cons h0 rest ih =>
    intro ew db r heq hn
    simp only [purgeLoop] at heq
    rcases h1 : lookupA indices.heights h0 with _ | e0
    · rw [h1] at heq
      exact ih _ _ _ heq hn
    · rw [h1] at heq
      obtain ⟨hash0, hdr0⟩ := e0
      simp only at heq
      by_cases hg : hdr0.era_id = 0
      · rw [if_pos hg] at heq
        exact ih _ _ _ heq hn
      · rw [if_neg hg] at heq
        rcases h2 : refresh_weights_for_era ew headerDb indices hdr0.era_id with e | p2
        · rw [h2] at heq; cases heq
        · rw [h2] at heq
          obtain ⟨b2, ew2⟩ := p2
          simp only at heq
          rcases h3 : lookupA db hash0 with _ | sv
          · rw [h3] at heq
            exact ih _ _ _ heq hn
          · rw [h3] at heq
            cases sv with
            | corrupt => simp at heq
            | good sigs =>
              simp only at heq
              exact ih _ _ _ heq (lookupA_eraseA_none db hash0 hash hn)

theorem purgeLoop_full_del (headerDb : List (Nat × HeaderVal)) (indices : Indices)
    (h hash : Nat) (hdr : BlockHeader)
    (hh : lookupA indices.heights h = some (hash, hdr))
    (hng : hdr.era_id ≠ 0)
    (huniq : ∀ h' e, lookupA indices.heights h' = some e → e.1 = hash → h' = h) :
    ∀ (l : List Nat) (ew : EraWeights) (db : List (Nat × SigVal))
      (r : EraWeights × List (Nat × SigVal)),
      purgeLoop headerDb indices true l ew db = .ok r →
      h ∈ l →
      (∃ s, lookupA db hash = some (.good s)) →
      lookupA r.2 hash = none := by
  intro l
  induction l with
  | nil =>
    intro ew db r _ hmem
    cases hmem
  | cons h0 rest ih =>
    intro ew db r heq hmem hgood
    simp only [purgeLoop] at heq
    by_cases hh0 : h0 = h
    · subst hh0
      rw [hh] at heq
      simp only at heq
      rw [if_neg hng] at heq
      rcases h2 : refresh_weights_for_era ew headerDb indices hdr.era_id with e | p2
      · rw [h2] at heq; cases heq
      · rw [h2] at heq
        obtain ⟨b2, ew2⟩ := p2
        simp only at heq
        obtain ⟨s, hs⟩ := hgood
        rw [hs] at heq
        simp only at heq
        exact purgeLoop_full_stays_none headerDb indices hash rest ew2 _ r heq
          (lookupA_eraseA_self db hash)
    · have hmem' : h ∈ rest := by
        rcases List.mem_cons.1 hmem with hc | hc
        · exact absurd hc.symm hh0
        · exact hc
      rcases h1 : lookupA indices.heights h0 with _ | e0
      · rw [h1] at heq
        exact ih _ _ _ heq hmem' hgood
      · rw [h1] at heq
        obtain ⟨hash0, hdr0⟩ := e0
        have hne : hash0 ≠ hash := by
          intro hee
          exact hh0 (huniq h0 (hash0, hdr0) h1 hee)
        simp only at heq
        by_cases hg : hdr0.era_id = 0
        · rw [if_pos hg] at heq
          exact ih _ _ _ heq hmem' hgood
        · rw [if_neg hg] at heq
          rcases h2 : refresh_weights_for_era ew headerDb indices hdr0.era_id with e | p2
          · rw [h2] at heq; cases heq
          · rw [h2] at heq
            obtain ⟨b2, ew2⟩ := p2
            simp only at heq
            rcases h3 : lookupA db hash0 with _ | sv
            · rw [h3] at heq
              exact ih _ _ _ heq hmem' hgood
            · rw [h3] at heq
              cases sv with
              | corrupt => simp at heq
              | good sigs =>
                simp only at heq
                refine ih _ _ _ heq hmem' ?_
                obtain ⟨s, hs⟩ := hgood
                refine ⟨s, ?_⟩
                rw [lookupA_eraseA_ne db hash0 hash (Ne.symm hne)]
                exact hs

theorem strip_some_sublist (weights : List (Nat × Nat))
    (signatures out : BlockSignatures)
    (heq : strip_signatures signatures weights = some out) :
    out.proofs.Sublist signatures.proofs := by
  simp only [strip_signatures] at heq
  rcases hpop : popLoop weights ((weights.map Prod.snd).sum)
      (accumLoop signatures.proofs ((weights.map Prod.snd).sum)
        (signerOrder weights) ([], 0)).1
      (accumLoop signatures.proofs ((weights.map Prod.snd).sum)
        (signerOrder weights) ([], 0)).2 with _ | p
  · rw [hpop] at heq
    cases heq
  · rw [hpop] at heq
    obtain ⟨sigs, aw⟩ := p
    simp only at heq
    by_cases hw : is_weak_finality aw ((weights.map Prod.snd).sum) = true
    · rw [if_pos hw] at heq
      have hout := Option.some.inj heq
      have hpf : out.proofs = signatures.proofs.filter fun p => sigs.contains p.1 :=
        congrArg BlockSignatures.proofs hout.symm
      rw [hpf]
      exact List.filter_sublist signatures.proofs
    · rw [if_neg hw] at heq
      cases heq

theorem purgeLoop_weak_strip (headerDb : List (Nat × HeaderVal)) (indices : Indices)
    (h hash : Nat) (hdr : BlockHeader)
    (hh : lookupA indices.heights h = some (hash, hdr))
    (hng : hdr.era_id ≠ 0)
    (huniq : ∀ h' e, lookupA indices.heights h' = some e → e.1 = hash → h' = h) :
    ∀ (l : List Nat) (ew : EraWeights) (db : List (Nat × SigVal))
      (r : EraWeights × List (Nat × SigVal)) (s : BlockSignatures),
      purgeLoop headerDb indices false l ew db = .ok r →
      l.Nodup →
      h ∈ l →
      lookupA db hash = some (.good s) →
      ∃ s', lookupA r.2 hash = some (.good s') ∧
        (s'.proofs.map Prod.fst) ⊆ (s.proofs.map Prod.fst) := by
  intro l
  induction l with
  | nil =>
    intro ew db r s _ _ hmem
    cases hmem
  | cons h0 rest ih =>
    intro ew db r s heq hnd hmem hgood
    have hnd' := (List.nodup_cons.1 hnd).2
    simp only [purgeLoop] at heq
    by_cases hh0 : h0 = h
    · subst hh0
      have hnotmem : h0 ∉ rest := (List.nodup_cons.1 hnd).1
      have hnot : ∀ h' ∈ rest, ∀ e, lookupA indices.heights h' = some e → e.1 ≠ hash := by
        intro h' hh' e he hee
        exact hnotmem ((huniq h' e he hee) ▸ hh')
      rw [hh] at heq
      simp only at heq
      rw [if_neg hng] at heq
      rcases h2 : refresh_weights_for_era ew headerDb indices hdr.era_id with e | p2
      · rw [h2] at heq; cases heq
      · rw [h2] at heq
        obtain ⟨b2, ew2⟩ := p2
        simp only at heq
        rw [hgood] at heq
        simp only at heq
        rcases h4 : strip_signatures s ew2.weights with _ | stripped
        · rw [h4] at heq
          simp only at heq
          refine ⟨s, ?_, fun x hx => hx⟩
          rw [purgeLoop_no_touch headerDb indices false hash rest ew2 db r heq hnot]
          exact hgood
        · rw [h4] at heq
          simp only at heq
          refine ⟨stripped, ?_, ?_⟩
          · rw [purgeLoop_no_touch headerDb indices false hash rest ew2 _ r heq hnot]
            exact lookupA_insertA_self db hash _
          · have hsub := strip_some_sublist ew2.weights s stripped h4
            exact (hsub.map Prod.fst).subset
    · have hmem' : h ∈ rest := by
        rcases List.mem_cons.1 hmem with hc | hc
        · exact absurd hc.symm hh0
        · exact hc
      rcases h1 : lookupA indices.heights h0 with _ | e0
      · rw [h1] at heq
        exact ih _ _ _ _ heq hnd' hmem' hgood
      · rw [h1] at heq
        obtain ⟨hash0, hdr0⟩ := e0
        have hne : hash0 ≠ hash := by
          intro hee
          exact hh0 (huniq h0 (hash0, hdr0) h1 hee)
        simp only at heq
        by_cases hg : hdr0.era_id = 0
        · rw [if_pos hg] at heq
          exact ih _ _ _ _ heq hnd' hmem' hgood
        · rw [if_neg hg] at heq
          rcases h2 : refresh_weights_for_era ew headerDb indices hdr0.era_id with e | p2
          · rw [h2] at heq; cases heq
          · rw [h2] at heq
            obtain ⟨b2, ew2⟩ := p2
            simp only at heq
            rcases h3 : lookupA db hash0 with _ | sv
            · rw [h3] at heq
              exact ih _ _ _ _ heq hnd' hmem' hgood
            · rw [h3] at heq
              cases sv with
              | corrupt => simp at heq
              | good sigs =>
                simp only at heq
                rcases h4 : strip_signatures sigs ew2.weights with _ | stripped2
                · rw [h4] at heq
                  simp only at heq
                  exact ih _ _ _ _ heq hnd' hmem' hgood
                · rw [h4] at heq
                  simp only at heq
                  refine ih _ _ _ _ heq hnd' hmem' ?_
                  rw [lookupA_insertA_ne db hash0 hash _ (Ne.symm hne)]
                  exact hgood

/-- **C4.** `purge_signatures` runs the weak-finality pass before the
full-purge (no-finality) pass.  Consequently, after a successful run, for a
height `h` in the weak-finality list whose block is present in the indices,
non-genesis, and has a good `block_metadata` record: if `h` is also in the
no-finality list, the final table has no entry for the block hash (full purge
wins, since the no-finality pass runs second); if `h` is only in the
weak-finality list, the record survives with its proofs map reduced to a
subset of the original signers. -/
theorem claim_C4_weak_then_full
    (headerDb : List (Nat × HeaderVal)) (sigDb finalDb : List (Nat × SigVal))
    (weakL noL : List Nat) (idx : Indices)
    (h hash : Nat) (hdr : BlockHeader) (s : BlockSignatures)
    (hknd : (headerDb.map Prod.fst).Nodup)
    (hrun : purge_signatures headerDb sigDb weakL noL = (.ok (), finalDb))
    (hidx : build_indices headerDb (natSetOf (weakL ++ noL)) = .ok idx)
    (hh : lookupA idx.heights h = some (hash, hdr))
    (hng : hdr.era_id ≠ 0)
    (hmeta : lookupA sigDb hash = some (.good s))
    (hw : h ∈ weakL) :
    (h ∈ noL → lookupA finalDb hash = none) ∧
    (h ∉ noL → ∃ s', lookupA finalDb hash = some (.good s') ∧
        (s'.proofs.map Prod.fst) ⊆ (s.proofs.map Prod.fst)) := by
  have hinv := build_indices_inv headerDb _ idx hknd hidx
  have huniq : ∀ h' e, lookupA idx.heights h' = some e → e.1 = hash → h' = h := by
    intro h' e he hee
    obtain ⟨e1, e2⟩ := e
    simp only at hee
    subst hee
    obtain ⟨hdb', hht'⟩ := hinv h' e1 e2 he
    obtain ⟨hdb, hht⟩ := hinv h e1 hdr hh
    have hcol : HeaderVal.good hdr = HeaderVal.good e2 :=
      Option.some.inj (hdb.symm.trans hdb')
    have hde : hdr = e2 := HeaderVal.good.inj hcol
    rw [← hht', ← hht, ← hde]
  simp only [purge_signatures] at hrun
  rw [hidx] at hrun
  simp only at hrun
  have hwne : (natSetOf weakL).isEmpty = false := natSetOf_nonempty_of_mem hw
  rw [hwne] at hrun
  simp only [Bool.false_eq_true, if_false] at hrun
  simp only [purge_signatures_for_blocks, hwne, Bool.false_eq_true, if_false] at hrun
  rcases hpl1 : purgeLoop headerDb idx false (natSetOf weakL) EraWeights.default sigDb
      with e | pr1
  · rw [hpl1] at hrun
    simp at hrun
  · rw [hpl1] at hrun
    obtain ⟨ew1, db1⟩ := pr1
    simp only at hrun
    have hweak := purgeLoop_weak_strip headerDb idx h hash hdr hh hng huniq
      (natSetOf weakL) EraWeights.default sigDb (ew1, db1) s hpl1 (natSetOf_nodup weakL)
      ((mem_natSetOf h weakL).2 hw) hmeta
    obtain ⟨s1, hs1, hsub1⟩ := hweak
    constructor
    · intro hno
      have hnone : (natSetOf noL).isEmpty = false := natSetOf_nonempty_of_mem hno
      rw [hnone] at hrun
      simp only [Bool.false_eq_true, if_false] at hrun
      rcases hpl2 : purgeLoop headerDb idx true (natSetOf noL) EraWeights.default db1
          with e | pr2
      · rw [hpl2] at hrun
        simp at hrun
      · rw [hpl2] at hrun
        obtain ⟨ew2, db2⟩ := pr2
        simp only at hrun
        have hdb2 : db2 = finalDb := congrArg Prod.snd hrun
        have hdel := purgeLoop_full_del headerDb idx h hash hdr hh hng huniq
          (natSetOf noL) EraWeights.default db1 (ew2, db2) hpl2
          ((mem_natSetOf h noL).2 hno) ⟨s1, hs1⟩
        rw [← hdb2]
        exact hdel
    · intro hno
      cases hne : (natSetOf noL).isEmpty with
      | true =>
        rw [hne] at hrun
        simp only [if_true] at hrun
        have hdb1 : db1 = finalDb := congrArg Prod.snd hrun
        exact ⟨s1, hdb1 ▸ hs1, hsub1⟩
      | false =>
        rw [hne] at hrun
        simp only [Bool.false_eq_true, if_false] at hrun
        rcases hpl2 : purgeLoop headerDb idx true (natSetOf noL) EraWeights.default db1
            with e | pr2
        · rw [hpl2] at hrun
          simp at hrun
        · rw [hpl2] at hrun
          obtain ⟨ew2, db2⟩ := pr2
          simp only at hrun
          have hdb2 : db2 = finalDb := congrArg Prod.snd hrun
          have hnot : ∀ h' ∈ natSetOf noL, ∀ e,
              lookupA idx.heights h' = some e → e.1 ≠ hash := by
            intro h' hh' e he hee
            have hh'' := huniq h' e he hee
            rw [hh''] at hh'
            exact hno ((mem_natSetOf h noL).1 hh')
          have hnt := purgeLoop_no_touch headerDb idx true hash (natSetOf noL)
            EraWeights.default db1 (ew2, db2) hpl2 hnot
          refine ⟨s1, ?_, hsub1⟩
          rw [← hdb2]
          rw [hnt]
          exact hs1

theorem claim_C4_witness :
    lookupA [(11, SigVal.good (BlockSignatures.mk 11 1 [(0, 0), (1, 0), (2, 0)]))] 12
      = none ∧
    (∃ s', lookupA [(11, SigVal.good (BlockSignatures.mk 11 1 [(0, 0), (1, 0), (2, 0)]))] 11
        = some (.good s') ∧
      (s'.proofs.map Prod.fst) ⊆
        ((BlockSignatures.mk 11 1 [(0, 0), (1, 0), (2, 0), (3, 0)]).proofs.map Prod.fst)) :=
  ⟨(claim_C4_weak_then_full
      [(10, HeaderVal.good ⟨0, 0, 1, true, some [(0, 100), (1, 200), (2, 300), (3, 400)], 0, 0⟩),
        (11, HeaderVal.good ⟨1, 1, 1, false, none, 0, 0⟩),
        (12, HeaderVal.good ⟨2, 1, 1, false, none, 0, 0⟩)]
      [(11, SigVal.good (BlockSignatures.mk 11 1 [(0, 0), (1, 0), (2, 0), (3, 0)])),
        (12, SigVal.good (BlockSignatures.mk 12 1 [(0, 0), (1, 0), (2, 0), (3, 0)]))]
      [(11, SigVal.good (BlockSignatures.mk 11 1 [(0, 0), (1, 0), (2, 0)]))]
      [1, 2] [2]
      ⟨[(1, 11, ⟨1, 1, 1, false, none, 0, 0⟩), (2, 12, ⟨2, 1, 1, false, none, 0, 0⟩)],
        [(1, 10)], []⟩
      2 12 ⟨2, 1, 1, false, none, 0, 0⟩ (BlockSignatures.mk 12 1 [(0, 0), (1, 0), (2, 0), (3, 0)])
      (by decide) rfl rfl (by decide) (by decide) (by decide)
      (by decide)).1 (by decide),
    (claim_C4_weak_then_full
      [(10, HeaderVal.good ⟨0, 0, 1, true, some [(0, 100), (1, 200), (2, 300), (3, 400)], 0, 0⟩),
        (11, HeaderVal.good ⟨1, 1, 1, false, none, 0, 0⟩),
        (12, HeaderVal.good ⟨2, 1, 1, false, none, 0, 0⟩)]
      [(11, SigVal.good (BlockSignatures.mk 11 1 [(0, 0), (1, 0), (2, 0), (3, 0)])),
        (12, SigVal.good (BlockSignatures.mk 12 1 [(0, 0), (1, 0), (2, 0), (3, 0)]))]
      [(11, SigVal.good (BlockSignatures.mk 11 1 [(0, 0), (1, 0), (2, 0)]))]
      [1, 2] [2]
      ⟨[(1, 11, ⟨1, 1, 1, false, none, 0, 0⟩), (2, 12, ⟨2, 1, 1, false, none, 0, 0⟩)],
        [(1, 10)], []⟩
      1 11 ⟨1, 1, 1, false, none, 0, 0⟩ (BlockSignatures.mk 11 1 [(0, 0), (1, 0), (2, 0), (3, 0)])
      (by decide) rfl rfl (by decide) (by decide) (by decide)
      (by decide)).2 (by decide)⟩

/-- **C8.** `purge_signatures_for_blocks` is atomic: whenever it returns an
error (progress-tracker failure on an empty block list, or any error raised
inside the visiting loop — missing era weights, header/signature parsing,
database error), the resulting `block_metadata` table is exactly the input
table.  In the model the returned table is the committed state: the single
write transaction commits only at the end of a fully successful pass, and an
error drops it, discarding every deletion or overwrite staged by the loop. -/
theorem claim_C8_no_partial_commit
    (headerDb : List (Nat × HeaderVal)) (sigDb db' : List (Nat × SigVal))
    (indices : Indices) (heights : List Nat) (full : Bool) (e : PurgeError)
    (hrun : purge_signatures_for_blocks headerDb sigDb indices heights full
      = (.error e, db')) :
    db' = sigDb := by
  simp only [purge_signatures_for_blocks] at hrun
  by_cases hemp : heights.isEmpty = true
  · rw [if_pos hemp] at hrun
    exact (congrArg Prod.snd hrun).symm
  · rw [if_neg hemp] at hrun
    rcases hpl : purgeLoop headerDb indices full heights .default sigDb with e2 | pr
    · rw [hpl] at hrun
      simp only at hrun
      exact (congrArg Prod.snd hrun).symm
    · rw [hpl] at hrun
      obtain ⟨ew, dbx⟩ := pr
      simp only at hrun
      have hfst := congrArg Prod.fst hrun
      simp at hfst

theorem claim_C8_witness :
    purge_signatures_for_blocks
      [(10, HeaderVal.good ⟨0, 0, 1, true, some [(0, 100), (1, 200), (2, 300), (3, 400)], 0, 0⟩),
        (11, HeaderVal.good ⟨1, 1, 1, false, none, 0, 0⟩),
        (12, HeaderVal.good ⟨2, 1, 1, false, none, 0, 0⟩)]
      [(11, SigVal.good (BlockSignatures.mk 11 1 [(0, 0), (1, 0)])), (12, SigVal.corrupt)]
      ⟨[(1, 11, ⟨1, 1, 1, false, none, 0, 0⟩), (2, 12, ⟨2, 1, 1, false, none, 0, 0⟩)],
        [(1, 10)], []⟩
      [1, 2] true
      = (.error (.SignaturesParsing 12),
          [(11, SigVal.good (BlockSignatures.mk 11 1 [(0, 0), (1, 0)])), (12, SigVal.corrupt)]) ∧
    [(11, SigVal.good (BlockSignatures.mk 11 1 [(0, 0), (1, 0)])), (12, SigVal.corrupt)]
      = [(11, SigVal.good (BlockSignatures.mk 11 1 [(0, 0), (1, 0)])), (12, SigVal.corrupt)] :=
  ⟨rfl,
    claim_C8_no_partial_commit
      [(10, HeaderVal.good ⟨0, 0, 1, true, some [(0, 100), (1, 200), (2, 300), (3, 400)], 0, 0⟩),
        (11, HeaderVal.good ⟨1, 1, 1, false, none, 0, 0⟩),
        (12, HeaderVal.good ⟨2, 1, 1, false, none, 0, 0⟩)]
      [(11, SigVal.good (BlockSignatures.mk 11 1 [(0, 0), (1, 0)])), (12, SigVal.corrupt)]
      [(11, SigVal.good (BlockSignatures.mk 11 1 [(0, 0), (1, 0)])), (12, SigVal.corrupt)]
      ⟨[(1, 11, ⟨1, 1, 1, false, none, 0, 0⟩), (2, 12, ⟨2, 1, 1, false, none, 0, 0⟩)],
        [(1, 10)], []⟩
      [1, 2] true (.SignaturesParsing 12) rfl⟩
